import Mathlib

/-!
Shallow embedding of the weekly-Spotify-playlist generator's core:
the discovery-mix builder (`src/scripts/discovery.py`), and the
artist-spread reorderer and primary-artist-resolver boundary that the
spec describes and `src/tests/test_spotify_api.py` exercises.

Upstream behaviour (the query recommender, the Spotify search client and
the `random.shuffle` permutation) is supplied explicitly through an
`Oracle`, so that every theorem quantifies over all possible upstream
responses, including failing ones.
-/

namespace BWSP

/-- Spotify track object as consumed by `build_discovery_mix`: only the
"uri" field is read; `none` models a missing key, and the truthiness test
`t.get("uri")` additionally rejects the empty string. -/
structure Track where
  uri : Option String
  deriving DecidableEq, Repr

/-- Spotify artist object: optional "name" field and a "genres" list
(`a.get("genres", [])` defaults to the empty list). -/
structure Artist where
  name : Option String
  genres : List String
  deriving DecidableEq, Repr

/-- Python truthiness of `t.get("uri")`: present and nonempty. -/
def trackUri? (t : Track) : Option String :=
  match t.uri with
  | some s => if s = "" then none else some s
  | none => none

/-- Python truthiness of `a.get("name")`: present and nonempty. -/
def artistName? (a : Artist) : Option String :=
  match a.name with
  | some s => if s = "" then none else some s
  | none => none

/-- Python `list(dict.fromkeys(xs))`: deduplicate, keeping the first
occurrence of each element, in order. -/
def pyDedup (l : List String) : List String :=
  l.foldl (fun acc x => if x ∈ acc then acc else acc ++ [x]) []

/-- Mutable state of `build_discovery_mix` (discovery.py:41-42): the
`discovered` list and its companion membership set `discovered_set`,
the set modelled as the list of its elements. -/
structure DState where
  discovered : List String
  discovered_set : List String
  deriving DecidableEq, Repr

/-- Initial state: empty list, empty set. -/
def DState.init : DState := ⟨[], []⟩

/-- Inner helper `add(uri, cap)` (discovery.py:44-53): append `uri` when it
is not a known track, not already discovered, and the list is below `cap`.
The Bool the Python function returns is ignored by every caller and
omitted here. -/
def add (known : List String) (cap : Nat) (st : DState) (uri : String) : DState :=
  if uri ∉ known ∧ uri ∉ st.discovered_set ∧ st.discovered.length < cap then
    ⟨st.discovered ++ [uri], uri :: st.discovered_set⟩
  else st

/-- Upstream behaviour of one run: the recommender's single response
(`.error` = the call raised), the search response to the k-th search call
issued with its query string (`.error` = that call raised), the
permutation `random.shuffle` applies to the anchor list, and whether the
slot-3 genre/artist pool assembly raises. -/
structure Oracle where
  aiQueries : Except Unit (List String)
  search : Nat → String → Except Unit (List String)
  shuffle : List String → List String
  poolErr : Bool

/-- Per-query search loop shared by slot 1 (discovery.py:68-82, cap 50)
and slot 3 (discovery.py:122-136, cap 100): break out once the discovered
list has reached `cap`; otherwise issue one search call per query, swallow
a failed call and continue with the next query, and feed every returned
uri through `add`.  Returns the index of the next search call together
with the final state. -/
def searchLoop (o : Oracle) (known : List String) (cap : Nat) :
    List String → Nat → DState → Nat × DState
  | [], k, st => (k, st)
  | q :: qs, k, st =>
    if cap ≤ st.discovered.length then (k, st)
    else
      match o.search k q with
      | .error _ => searchLoop o known cap qs (k + 1) st
      | .ok uris => searchLoop o known cap qs (k + 1) (uris.foldl (add known cap) st)

/-- Slot 1, AI-powered recommendations (discovery.py:55-90): a failure of
the recommender call itself is caught and the slot contributes nothing. -/
def slot1 (o : Oracle) (known : List String) (k : Nat) (st : DState) : Nat × DState :=
  match o.aiQueries with
  | .error _ => (k, st)
  | .ok queries => searchLoop o known 50 queries k st

/-- One iteration of the slot-2 anchor loop (discovery.py:98-101): anchors
bypass the known-track exclusion and are bounded by the cumulative cap 65. -/
def slot2Step (st : DState) (uri : String) : DState :=
  if uri ∉ st.discovered_set ∧ st.discovered.length < 65 then
    ⟨st.discovered ++ [uri], uri :: st.discovered_set⟩
  else st

/-- Slot 2, familiar anchors (discovery.py:92-102): deduplicate the source
tracks' uris into a fresh list, shuffle that list, then append from it. -/
def slot2 (o : Oracle) (source_tracks : List Track) (st : DState) : DState :=
  let anchor_uris := pyDedup (source_tracks.filterMap trackUri?)
  (o.shuffle anchor_uris).foldl slot2Step st

/-- Slot-3 query pool (discovery.py:107-121): up to 8 deduplicated genres
of the current top artists as exact-phrase genre queries, plus up to 8
deduplicated artist names from source and current top artists. -/
def slot3Queries (source_artists current_top_artists : List Artist) : List String :=
  let genres := pyDedup (current_top_artists.flatMap Artist.genres)
  let artist_names := pyDedup
    (source_artists.filterMap artistName? ++ current_top_artists.filterMap artistName?)
  (genres.take 8).map (fun g => "genre:\"" ++ g ++ "\"") ++
    (artist_names.take 8).map (fun n => "artist:\"" ++ n ++ "\"")

/-- Slot 3, genre/artist search fallback (discovery.py:104-142): a failure
while assembling the query pool is caught by the outer `except` and the
slot contributes nothing; individual query failures are handled inside
`searchLoop`. -/
def slot3 (o : Oracle) (known : List String)
    (source_artists current_top_artists : List Artist) (k : Nat) (st : DState) : DState :=
  if o.poolErr then st
  else (searchLoop o known 100 (slot3Queries source_artists current_top_artists) k st).2

/-- Whole function `build_discovery_mix` (discovery.py:14-150), with
upstream behaviour supplied by the oracle `o`. -/
def build_discovery_mix (o : Oracle) (source_tracks : List Track)
    (source_artists current_top_artists : List Artist) : List String :=
  let known := source_tracks.filterMap trackUri?
  let s1 := slot1 o known 0 DState.init
  let s2 := slot2 o source_tracks s1.2
  let s3 := slot3 o known source_artists current_top_artists s1.1 s2
  s3.discovered

/-- Caller-owned heap for the frame property: the three input lists of
`build_discovery_mix`. -/
structure PyHeap where
  source_tracks : List Track
  source_artists : List Artist
  current_top_artists : List Artist
  deriving DecidableEq

/-- Heap-threaded slot 2: `anchor_uris` is a fresh list built by
`list(dict.fromkeys(...))` from the source tracks, and `random.shuffle`
mutates only that fresh list, so the heap comes back unchanged. -/
def slot2Heap (o : Oracle) (h : PyHeap) (st : DState) : PyHeap × DState :=
  let anchor_uris := pyDedup (h.source_tracks.filterMap trackUri?)
  let shuffled_anchor_uris := o.shuffle anchor_uris
  (h, shuffled_anchor_uris.foldl slot2Step st)

/-- Heap-threaded translation of `build_discovery_mix`: every statement of
the function either reads the caller's lists or writes a local object, so
each stage passes the heap through. -/
def build_discovery_mix_heap (o : Oracle) (h : PyHeap) : PyHeap × List String :=
  let known := h.source_tracks.filterMap trackUri?
  let s1 := slot1 o known 0 DState.init
  let hs2 := slot2Heap o h s1.2
  let s3 := slot3 o known hs2.1.source_artists hs2.1.current_top_artists s1.1 hs2.2
  (hs2.1, s3.discovered)

/-!
Definitions for the artist-spread reorderer (spec section 4.2) and the
primary-artist resolver boundary (spec section 4.3).  The file
`create_weekly_playlist.py` that implements them is not among the sources
here — only its tests are — so these definitions are modelled from the
spec's design description.
-/

/-- Python `artist_map.get(t)` over a dict modelled as an association
list. -/
def lookupArtist (artist_map : List (String × String)) (t : String) : Option String :=
  (artist_map.find? (fun pr => pr.1 = t)).map Prod.snd

/-- Keyed track groups: `some a` keys the group of all tracks resolving to
artist `a`; a `none` key marks the singleton group of one unresolved
track. -/
abbrev KGroups := List (Option String × List String)

/-- Modelled from the spec: insertion of a track resolving to artist `a`
into the groups — append it to the existing group of `a`, or open a new
group at the end. -/
def insertKeyed (a t : String) : KGroups → KGroups
  | [] => [(some a, [t])]
  | g :: gt => if g.1 = some a then (g.1, g.2 ++ [t]) :: gt else g :: insertKeyed a t gt

/-- Modelled from the spec: "group track references by resolved artist
(tracks with no resolvable artist form their own singleton groups)". -/
def insertTrack (am : String → Option String) (kgs : KGroups) (t : String) : KGroups :=
  match am t with
  | none => kgs ++ [(none, [t])]
  | some a => insertKeyed a t kgs

/-- Group the tracks by resolved artist, in input order. -/
def buildGroups (am : String → Option String) (tracks : List String) : KGroups :=
  tracks.foldl (insertTrack am) []

/-- Size of the j-th group (0 when out of range). -/
def gsize (kgs : KGroups) (j : Nat) : Nat := (kgs.getD j (none, [])).2.length

/-- Total number of tracks still distributed over the groups. -/
def totalLen (kgs : KGroups) : Nat := (kgs.map (fun g => g.2.length)).sum

/-- Concatenation of the groups' members. -/
def joinG (kgs : KGroups) : List String := (kgs.map Prod.snd).flatten

/-- Indices of nonempty groups other than the previously picked one. -/
def eligibleIdx (kgs : KGroups) (p : Option Nat) : List Nat :=
  (List.range kgs.length).filter (fun j => decide (some j ≠ p) && decide (gsize kgs j ≠ 0))

/-- Modelled from the spec: "repeatedly select the next track from a
different group than the previous pick, preferring the group with the most
remaining members". -/
def pickIdx (kgs : KGroups) (p : Option Nat) : Option Nat :=
  (eligibleIdx kgs p).argmax (fun j => gsize kgs j)

/-- Modelled from the spec: when only the previously picked group has
members left, the algorithm accepts the unavoidable collision and keeps
drawing from that group instead of failing. -/
def pick (kgs : KGroups) (p : Option Nat) : Option Nat :=
  match pickIdx kgs p with
  | some j => some j
  | none =>
    match p with
    | some i => if gsize kgs i ≠ 0 then some i else none
    | none => none

/-- Remove and return the next remaining track of group `j` (groups keep
their input-relative order). -/
def popTrack (kgs : KGroups) (j : Nat) : String × KGroups :=
  let g := kgs.getD j (none, [])
  match g.2 with
  | [] => ("", kgs)
  | x :: rest => (x, kgs.set j (g.1, rest))

/-- Greedy round-robin interleaving: at every step draw from the group
`pick` selects; the fuel is the total number of tracks. -/
def greedyRun : Nat → KGroups → Option Nat → List String
  | 0, _, _ => []
  | fuel + 1, kgs, p =>
    match pick kgs p with
    | none => []
    | some j => (popTrack kgs j).1 :: greedyRun fuel (popTrack kgs j).2 (some j)

/-- Modelled from the spec: `_spread_tracks_by_artist(tracks, artist_map)`
of `create_weekly_playlist.py` (absent from the sources) — permute the
track list so adjacent tracks avoid sharing a primary artist, by greedy
round-robin over the artist groups. -/
def _spread_tracks_by_artist (tracks : List String)
    (artist_map : List (String × String)) : List String :=
  let gs := buildGroups (lookupArtist artist_map) tracks
  greedyRun (totalLen gs) gs none

/-- Whether two tracks resolve to the same artist; unresolved tracks are
treated as mutually different (spec section 4.2). -/
def sameArtist (am : String → Option String) (x y : String) : Bool :=
  match am x, am y with
  | some a, some b => a = b
  | _, _ => false

/-- Number of adjacent same-artist pairs of a track list. -/
def adjCollisions (am : String → Option String) : List String → Nat
  | [] => 0
  | [_] => 0
  | x :: y :: rest => (if sameArtist am x y then 1 else 0) + adjCollisions am (y :: rest)

/-- Adjacent collisions of a list prefixed by a virtual previous element
of the given resolved artist. -/
def adjFrom (am : String → Option String) : Option String → List String → Nat
  | _, [] => 0
  | prev, x :: rest =>
    (match prev, am x with
      | some a, some b => if a = b then 1 else 0
      | _, _ => 0)
      + adjFrom am (am x) rest

/-- Modelled from the spec: `spotify_track_primary_artist_by_uri` — after
deduplicating the valid track references, call the API once per batch of
50 and merge the returned uri-to-artist pairs; any HTTP error (such as a
403) is propagated to the caller.  `http` maps a call index and the batch
to an error status or the response pairs. -/
def resolveBatches (http : Nat → List String → Except Nat (List (String × String))) :
    List (List String) → Nat → Except Nat (List (String × String))
  | [], _ => .ok []
  | b :: bs, k =>
    match http k b with
    | .error e => .error e
    | .ok pairs =>
      match resolveBatches http bs (k + 1) with
      | .error e => .error e
      | .ok rest => .ok (pairs ++ rest)

/-- Fuel-driven splitting of the id list into batches of at most 50; the
fuel is the list length, which bounds the number of batches. -/
def batches50Go : Nat → List String → List (List String)
  | 0, _ => []
  | _, [] => []
  | fuel + 1, x :: xs => ((x :: xs).take 50) :: batches50Go fuel ((x :: xs).drop 50)

/-- Modelled from the spec: batch the track ids in groups of at most 50,
one API call per batch. -/
def batches50 (l : List String) : List (List String) :=
  batches50Go l.length l

/-- Modelled from the spec: the resolver entry point — empty or malformed
references (those failing the transport-level validity test `validUri`,
in the implementation a "spotify:track:" prefix check) are dropped without
any call, the rest are deduplicated and looked up in batches of 50. -/
def spotify_track_primary_artist_by_uri (validUri : String → Bool)
    (http : Nat → List String → Except Nat (List (String × String)))
    (uris : List String) : Except Nat (List (String × String)) :=
  let valid := pyDedup (uris.filter validUri)
  resolveBatches http (batches50 valid) 0

/-- Modelled from the spec: the playlist-assembly fallback of
`create_weekly_playlist.py` — resolve the primary artists of the discovery
mix; if the lookup raises an HTTP error, substitute the empty map; reorder
with `_spread_tracks_by_artist` only when the map is nonempty, otherwise
keep the discovery-mix order. -/
def create_weekly_playlist_order (validUri : String → Bool)
    (http : Nat → List String → Except Nat (List (String × String)))
    (rec_uris : List String) : List String :=
  let primary_artist_by_uri :=
    match spotify_track_primary_artist_by_uri validUri http rec_uris with
    | .error _ => []
    | .ok m => m
  if primary_artist_by_uri = [] then rec_uris
  else _spread_tracks_by_artist rec_uris primary_artist_by_uri

/-- Key of the j-th group (`none` when out of range). -/
def keyAt (kgs : KGroups) (j : Nat) : Option String := (kgs.getD j (none, [])).1

/-- Every member of every group resolves to its group's key. -/
def ElemKeysP (am : String → Option String) (kgs : KGroups) : Prop :=
  ∀ j, ∀ t ∈ (kgs.getD j (none, [])).2, am t = keyAt kgs j

/-- Two distinct groups never share a resolved artist key. -/
def KeyDistinctP (kgs : KGroups) : Prop :=
  ∀ i j a, i ≠ j → keyAt kgs i = some a → keyAt kgs j ≠ some a

/-- Groups of unresolved tracks are singletons. -/
def NoneSingleP (kgs : KGroups) : Prop :=
  ∀ j, keyAt kgs j = none → gsize kgs j ≤ 1

/-- The virtual previous-artist key agrees with the previously picked
group. -/
def PrevKeyOK (kgs : KGroups) (p : Option Nat) (pk : Option String) : Prop :=
  match p with
  | some i => pk = keyAt kgs i
  | none => pk = none

/-- Key compatibility: two group keys never name the same resolved
artist. -/
def RK (k k' : Option String) : Prop := ∀ a : String, k = some a → k' ≠ some a

/-- Number of tracks of `l` resolving to artist `a`. -/
def countA (am : String → Option String) (a : String) (l : List String) : Nat :=
  l.countP (fun t => am t = some a)

/-- Number of tracks of `l` not resolving to artist `a`. -/
def countNotA (am : String → Option String) (a : String) (l : List String) : Nat :=
  l.countP (fun t => ¬(am t = some a))

/-- Whether the first element of `l` resolves to artist `a` (as 0 or 1). -/
def headA (am : String → Option String) (a : String) : List String → Nat
  | [] => 0
  | x :: _ => if am x = some a then 1 else 0

/-! Invariant lemmas about `add`, the search loops and the slots. -/

/-- Combined state invariant: the discovered list has no duplicates and the
companion set holds exactly its elements. -/
def DInv (st : DState) : Prop :=
  st.discovered.Nodup ∧ ∀ u, u ∈ st.discovered ↔ u ∈ st.discovered_set

theorem DInv_init : DInv DState.init := by
  constructor
  · exact List.nodup_nil
  · intro u; simp [DState.init]

theorem add_length_mono (known : List String) (cap : Nat) (st : DState) (u : String) :
    st.discovered.length ≤ (add known cap st u).discovered.length := by
  unfold add; split
  · simp
  · exact le_refl _

theorem add_length_le (known : List String) (cap : Nat) (st : DState) (u : String)
    (h : st.discovered.length ≤ cap) : (add known cap st u).discovered.length ≤ cap := by
  unfold add; split
  · rename_i hg; simp; omega
  · exact h

theorem add_DInv (known : List String) (cap : Nat) (st : DState) (u : String)
    (h : DInv st) : DInv (add known cap st u) := by
  obtain ⟨hnd, hiff⟩ := h
  unfold add; split
  · rename_i hg
    refine ⟨?_, ?_⟩
    · have hu : u ∉ st.discovered := fun hmem => hg.2.1 ((hiff u).mp hmem)
      simpa [List.nodup_append] using ⟨hnd, hu⟩
    · intro v
      rw [List.mem_append, List.mem_singleton, List.mem_cons, hiff v]
      tauto
  · exact ⟨hnd, hiff⟩

theorem add_discovered_append (known : List String) (cap : Nat) (st : DState) (u : String) :
    ∃ d, (add known cap st u).discovered = st.discovered ++ d ∧ ∀ v ∈ d, v ∉ known := by
  unfold add; split
  · rename_i hg
    exact ⟨[u], rfl, by intro v hv; rw [List.mem_singleton] at hv; subst hv; exact hg.1⟩
  · exact ⟨[], by simp, by simp⟩

theorem foldl_add_length_mono (known : List String) (cap : Nat) (uris : List String) :
    ∀ st : DState, st.discovered.length ≤ (uris.foldl (add known cap) st).discovered.length := by
  induction uris with
  | nil => intro st; exact le_refl _
  | cons u rest ih =>
    intro st
    exact le_trans (add_length_mono known cap st u) (ih (add known cap st u))

theorem foldl_add_length_le (known : List String) (cap : Nat) (uris : List String) :
    ∀ st : DState, st.discovered.length ≤ cap →
      (uris.foldl (add known cap) st).discovered.length ≤ cap := by
  induction uris with
  | nil => intro st h; exact h
  | cons u rest ih =>
    intro st h
    exact ih (add known cap st u) (add_length_le known cap st u h)

theorem foldl_add_DInv (known : List String) (cap : Nat) (uris : List String) :
    ∀ st : DState, DInv st → DInv (uris.foldl (add known cap) st) := by
  induction uris with
  | nil => intro st h; exact h
  | cons u rest ih =>
    intro st h
    exact ih (add known cap st u) (add_DInv known cap st u h)

theorem foldl_add_discovered_append (known : List String) (cap : Nat) (uris : List String) :
    ∀ st : DState, ∃ d, (uris.foldl (add known cap) st).discovered = st.discovered ++ d ∧
      ∀ v ∈ d, v ∉ known := by
  induction uris with
  | nil => intro st; exact ⟨[], by simp, by simp⟩
  | cons u rest ih =>
    intro st
    obtain ⟨d1, hd1, hk1⟩ := add_discovered_append known cap st u
    obtain ⟨d2, hd2, hk2⟩ := ih (add known cap st u)
    refine ⟨d1 ++ d2, ?_, ?_⟩
    · rw [List.foldl_cons, hd2, hd1, List.append_assoc]
    · intro v hv
      rcases List.mem_append.mp hv with h | h
      · exact hk1 v h
      · exact hk2 v h

theorem searchLoop_length_mono (o : Oracle) (known : List String) (cap : Nat)
    (qs : List String) : ∀ (k : Nat) (st : DState),
    st.discovered.length ≤ (searchLoop o known cap qs k st).2.discovered.length := by
  induction qs with
  | nil => intro k st; exact le_refl _
  | cons q rest ih =>
    intro k st
    rw [searchLoop]
    split
    · exact le_refl _
    · cases o.search k q with
      | error e => exact ih (k + 1) st
      | ok uris =>
        exact le_trans (foldl_add_length_mono known cap uris st)
          (ih (k + 1) (uris.foldl (add known cap) st))

theorem searchLoop_length_le (o : Oracle) (known : List String) (cap : Nat)
    (qs : List String) : ∀ (k : Nat) (st : DState), st.discovered.length ≤ cap →
    (searchLoop o known cap qs k st).2.discovered.length ≤ cap := by
  induction qs with
  | nil => intro k st h; exact h
  | cons q rest ih =>
    intro k st h
    rw [searchLoop]
    split
    · exact h
    · cases o.search k q with
      | error e => exact ih (k + 1) st h
      | ok uris =>
        exact ih (k + 1) (uris.foldl (add known cap) st)
          (foldl_add_length_le known cap uris st h)

theorem searchLoop_DInv (o : Oracle) (known : List String) (cap : Nat)
    (qs : List String) : ∀ (k : Nat) (st : DState), DInv st →
    DInv (searchLoop o known cap qs k st).2 := by
  induction qs with
  | nil => intro k st h; exact h
  | cons q rest ih =>
    intro k st h
    rw [searchLoop]
    split
    · exact h
    · cases o.search k q with
      | error e => exact ih (k + 1) st h
      | ok uris =>
        exact ih (k + 1) (uris.foldl (add known cap) st) (foldl_add_DInv known cap uris st h)

theorem searchLoop_discovered_append (o : Oracle) (known : List String) (cap : Nat)
    (qs : List String) : ∀ (k : Nat) (st : DState),
    ∃ d, (searchLoop o known cap qs k st).2.discovered = st.discovered ++ d ∧
      ∀ v ∈ d, v ∉ known := by
  induction qs with
  | nil => intro k st; exact ⟨[], by simp [searchLoop], by simp⟩
  | cons q rest ih =>
    intro k st
    rw [searchLoop]
    split
    · exact ⟨[], by simp, by simp⟩
    · cases o.search k q with
      | error e => exact ih (k + 1) st
      | ok uris =>
        obtain ⟨d1, hd1, hk1⟩ := foldl_add_discovered_append known cap uris st
        obtain ⟨d2, hd2, hk2⟩ := ih (k + 1) (uris.foldl (add known cap) st)
        refine ⟨d1 ++ d2, ?_, ?_⟩
        · rw [hd2, hd1, List.append_assoc]
        · intro v hv
          rcases List.mem_append.mp hv with h | h
          · exact hk1 v h
          · exact hk2 v h

theorem slot1_length_mono (o : Oracle) (known : List String) (k : Nat) (st : DState) :
    st.discovered.length ≤ (slot1 o known k st).2.discovered.length := by
  unfold slot1
  cases o.aiQueries with
  | error e => exact le_refl _
  | ok queries => exact searchLoop_length_mono o known 50 queries k st

theorem slot1_length_le (o : Oracle) (known : List String) (k : Nat) (st : DState)
    (h : st.discovered.length ≤ 50) : (slot1 o known k st).2.discovered.length ≤ 50 := by
  unfold slot1
  cases o.aiQueries with
  | error e => exact h
  | ok queries => exact searchLoop_length_le o known 50 queries k st h

theorem slot1_DInv (o : Oracle) (known : List String) (k : Nat) (st : DState)
    (h : DInv st) : DInv (slot1 o known k st).2 := by
  unfold slot1
  cases o.aiQueries with
  | error e => exact h
  | ok queries => exact searchLoop_DInv o known 50 queries k st h

theorem slot1_discovered_append (o : Oracle) (known : List String) (k : Nat) (st : DState) :
    ∃ d, (slot1 o known k st).2.discovered = st.discovered ++ d ∧ ∀ v ∈ d, v ∉ known := by
  unfold slot1
  cases o.aiQueries with
  | error e => exact ⟨[], by simp, by simp⟩
  | ok queries => exact searchLoop_discovered_append o known 50 queries k st

theorem slot2Step_length_mono (st : DState) (u : String) :
    st.discovered.length ≤ (slot2Step st u).discovered.length := by
  unfold slot2Step; split
  · simp
  · exact le_refl _

theorem slot2Step_length_le (st : DState) (u : String)
    (h : st.discovered.length ≤ 65) : (slot2Step st u).discovered.length ≤ 65 := by
  unfold slot2Step; split
  · rename_i hg; simp; omega
  · exact h

theorem slot2Step_DInv (st : DState) (u : String) (h : DInv st) : DInv (slot2Step st u) := by
  obtain ⟨hnd, hiff⟩ := h
  unfold slot2Step; split
  · rename_i hg
    refine ⟨?_, ?_⟩
    · have hu : u ∉ st.discovered := fun hmem => hg.1 ((hiff u).mp hmem)
      simpa [List.nodup_append] using ⟨hnd, hu⟩
    · intro v
      rw [List.mem_append, List.mem_singleton, List.mem_cons, hiff v]
      tauto
  · exact ⟨hnd, hiff⟩

theorem slot2Step_discovered_append (st : DState) (u : String) :
    ∃ d, (slot2Step st u).discovered = st.discovered ++ d := by
  unfold slot2Step; split
  · exact ⟨[u], rfl⟩
  · exact ⟨[], by simp⟩

theorem foldl_slot2Step_length_mono (uris : List String) :
    ∀ st : DState, st.discovered.length ≤ (uris.foldl slot2Step st).discovered.length := by
  induction uris with
  | nil => intro st; exact le_refl _
  | cons u rest ih =>
    intro st
    exact le_trans (slot2Step_length_mono st u) (ih (slot2Step st u))

theorem foldl_slot2Step_length_le (uris : List String) :
    ∀ st : DState, st.discovered.length ≤ 65 →
      (uris.foldl slot2Step st).discovered.length ≤ 65 := by
  induction uris with
  | nil => intro st h; exact h
  | cons u rest ih =>
    intro st h
    exact ih (slot2Step st u) (slot2Step_length_le st u h)

theorem foldl_slot2Step_DInv (uris : List String) :
    ∀ st : DState, DInv st → DInv (uris.foldl slot2Step st) := by
  induction uris with
  | nil => intro st h; exact h
  | cons u rest ih =>
    intro st h
    exact ih (slot2Step st u) (slot2Step_DInv st u h)

theorem foldl_slot2Step_discovered_append (uris : List String) :
    ∀ st : DState, ∃ d, (uris.foldl slot2Step st).discovered = st.discovered ++ d := by
  induction uris with
  | nil => intro st; exact ⟨[], by simp⟩
  | cons u rest ih =>
    intro st
    obtain ⟨d1, hd1⟩ := slot2Step_discovered_append st u
    obtain ⟨d2, hd2⟩ := ih (slot2Step st u)
    exact ⟨d1 ++ d2, by rw [List.foldl_cons, hd2, hd1, List.append_assoc]⟩

theorem slot2_length_mono (o : Oracle) (ts : List Track) (st : DState) :
    st.discovered.length ≤ (slot2 o ts st).discovered.length :=
  foldl_slot2Step_length_mono _ st

theorem slot2_length_le (o : Oracle) (ts : List Track) (st : DState)
    (h : st.discovered.length ≤ 65) : (slot2 o ts st).discovered.length ≤ 65 :=
  foldl_slot2Step_length_le _ st h

theorem slot2_DInv (o : Oracle) (ts : List Track) (st : DState) (h : DInv st) :
    DInv (slot2 o ts st) :=
  foldl_slot2Step_DInv _ st h

theorem slot2_discovered_append (o : Oracle) (ts : List Track) (st : DState) :
    ∃ d, (slot2 o ts st).discovered = st.discovered ++ d :=
  foldl_slot2Step_discovered_append _ st

theorem slot3_length_mono (o : Oracle) (known : List String)
    (sas cta : List Artist) (k : Nat) (st : DState) :
    st.discovered.length ≤ (slot3 o known sas cta k st).discovered.length := by
  unfold slot3; split
  · exact le_refl _
  · exact searchLoop_length_mono o known 100 _ k st

theorem slot3_length_le (o : Oracle) (known : List String)
    (sas cta : List Artist) (k : Nat) (st : DState)
    (h : st.discovered.length ≤ 100) :
    (slot3 o known sas cta k st).discovered.length ≤ 100 := by
  unfold slot3; split
  · exact h
  · exact searchLoop_length_le o known 100 _ k st h

theorem slot3_DInv (o : Oracle) (known : List String)
    (sas cta : List Artist) (k : Nat) (st : DState) (h : DInv st) :
    DInv (slot3 o known sas cta k st) := by
  unfold slot3; split
  · exact h
  · exact searchLoop_DInv o known 100 _ k st h

theorem slot3_discovered_append (o : Oracle) (known : List String)
    (sas cta : List Artist) (k : Nat) (st : DState) :
    ∃ d, (slot3 o known sas cta k st).discovered = st.discovered ++ d ∧
      ∀ v ∈ d, v ∉ known := by
  unfold slot3; split
  · exact ⟨[], by simp, by simp⟩
  · exact searchLoop_discovered_append o known 100 _ k st

theorem searchLoop_error_step (o : Oracle) (known : List String) (cap k : Nat)
    (q : String) (qs : List String) (st : DState)
    (hq : o.search k q = .error ()) (hl : st.discovered.length < cap) :
    searchLoop o known cap (q :: qs) k st = searchLoop o known cap qs (k + 1) st := by
  rw [searchLoop, if_neg (Nat.not_le.mpr hl), hq]

theorem slot1_error_eq (o : Oracle) (known : List String) (k : Nat) (st : DState)
    (ha : o.aiQueries = .error ()) : slot1 o known k st = (k, st) := by
  unfold slot1; rw [ha]

theorem slot3_poolErr_eq (o : Oracle) (known : List String) (sas cta : List Artist)
    (k : Nat) (st : DState) (hp : o.poolErr = true) :
    slot3 o known sas cta k st = st := by
  unfold slot3; rw [hp]; simp

theorem searchLoop_all_error (o : Oracle) (known : List String) (cap : Nat)
    (qs : List String) : ∀ (k : Nat) (st : DState),
    (∀ i q, k ≤ i → i < k + qs.length → o.search i q = .error ()) →
    st.discovered.length < cap →
    searchLoop o known cap qs k st = (k + qs.length, st) := by
  induction qs with
  | nil => intro k st _ _; simp [searchLoop]
  | cons q rest ih =>
    intro k st h hl
    have hq : o.search k q = .error () := h k q (le_refl k) (by simp)
    rw [searchLoop_error_step o known cap k q rest st hq hl,
      ih (k + 1) st (fun i r hi1 hi2 => h i r (by omega) (by simp; omega)) hl]
    simp; omega

/-! Theorems for the claims about `build_discovery_mix`. -/

/-- C1: for every input and every sequence of upstream responses, the list
returned by `build_discovery_mix` has length at most 100, and the length of
the discovered list never decreases as slots 1, 2 and 3 execute in order. -/
theorem discovery_length_bounds (o : Oracle) (source_tracks : List Track)
    (source_artists current_top_artists : List Artist) :
    (build_discovery_mix o source_tracks source_artists current_top_artists).length ≤ 100 ∧
    (let known := source_tracks.filterMap trackUri?
     let s1 := slot1 o known 0 DState.init
     let s2 := slot2 o source_tracks s1.2
     let s3 := slot3 o known source_artists current_top_artists s1.1 s2
     build_discovery_mix o source_tracks source_artists current_top_artists = s3.discovered ∧
     DState.init.discovered.length ≤ s1.2.discovered.length ∧
     s1.2.discovered.length ≤ s2.discovered.length ∧
     s2.discovered.length ≤ s3.discovered.length) := by
  refine ⟨?_, rfl, slot1_length_mono o _ 0 DState.init,
    slot2_length_mono o source_tracks _, slot3_length_mono o _ _ _ _ _⟩
  have h1 : (slot1 o (source_tracks.filterMap trackUri?) 0 DState.init).2.discovered.length ≤ 50 :=
    slot1_length_le o _ 0 DState.init (by simp [DState.init])
  have h2 := slot2_length_le o source_tracks
    (slot1 o (source_tracks.filterMap trackUri?) 0 DState.init).2 (le_trans h1 (by omega))
  exact slot3_length_le o _ source_artists current_top_artists _ _ (le_trans h2 (by omega))

/-- C2: for every input and every sequence of upstream responses, no track
reference appears twice in the list returned by `build_discovery_mix`. -/
theorem discovery_nodup (o : Oracle) (source_tracks : List Track)
    (source_artists current_top_artists : List Artist) :
    (build_discovery_mix o source_tracks source_artists current_top_artists).Nodup := by
  exact (slot3_DInv o _ source_artists current_top_artists _ _
    (slot2_DInv o source_tracks _
      (slot1_DInv o _ 0 DState.init DInv_init))).1

/-- C3: for every input and every sequence of upstream responses, every
element of the returned list that belongs to the known-track set (the
nonempty uris of `source_tracks`) was contributed by slot 2 — it appears in
the state after slot 2 but not in the state after slot 1; slots 1 and 3
never add a known track. -/
theorem discovery_known_only_from_anchors (o : Oracle) (source_tracks : List Track)
    (source_artists current_top_artists : List Artist) :
    let known := source_tracks.filterMap trackUri?
    let s1 := slot1 o known 0 DState.init
    let s2 := slot2 o source_tracks s1.2
    ∀ u ∈ build_discovery_mix o source_tracks source_artists current_top_artists,
      u ∈ known → u ∈ s2.discovered ∧ u ∉ s1.2.discovered := by
  intro known s1 s2 u hu hk
  obtain ⟨d1, hd1, hk1⟩ := slot1_discovered_append o known 0 DState.init
  obtain ⟨d3, hd3, hk3⟩ :=
    slot3_discovered_append o known source_artists current_top_artists s1.1 s2
  have hmem : u ∈ s2.discovered ++ d3 := by
    rw [← hd3]; exact hu
  have hu2 : u ∈ s2.discovered := by
    rcases List.mem_append.mp hmem with h | h
    · exact h
    · exact absurd hk (hk3 u h)
  refine ⟨hu2, fun hcon => ?_⟩
  have : u ∈ DState.init.discovered ++ d1 := by rw [← hd1]; exact hcon
  rcases List.mem_append.mp this with h | h
  · simp [DState.init] at h
  · exact hk1 u h hk

theorem discovery_known_only_from_anchors_witness :
    "T1" ∈ (slot2 ⟨.error (), fun _ _ => .error (), id, true⟩ [⟨some "T1"⟩]
        (slot1 ⟨.error (), fun _ _ => .error (), id, true⟩
          (([⟨some "T1"⟩] : List Track).filterMap trackUri?) 0 DState.init).2).discovered ∧
    "T1" ∉ (slot1 ⟨.error (), fun _ _ => .error (), id, true⟩
        (([⟨some "T1"⟩] : List Track).filterMap trackUri?) 0 DState.init).2.discovered :=
  discovery_known_only_from_anchors ⟨.error (), fun _ _ => .error (), id, true⟩
    [⟨some "T1"⟩] [] [] "T1" (by decide) (by decide)

/-- C4: upstream failures degrade and never abort the run (the embedding is
a total function for every oracle, mirroring the function's catches): a
single query's search failure is swallowed and the loop continues with the
next query at an unchanged state; a recommender-wide failure makes slot 1
contribute nothing; a slot-3 pool failure makes slot 3 contribute nothing;
and with both slot-wide failures the run still completes, returning the
possibly shorter (or empty) slot-2-only list. -/
theorem discovery_failures_degrade (o : Oracle) (known : List String) (cap k : Nat)
    (q : String) (qs : List String) (st : DState)
    (source_tracks : List Track) (sas cta : List Artist) :
    (o.search k q = .error () → st.discovered.length < cap →
      searchLoop o known cap (q :: qs) k st = searchLoop o known cap qs (k + 1) st) ∧
    (o.aiQueries = .error () → slot1 o known k st = (k, st)) ∧
    (o.poolErr = true → slot3 o known sas cta k st = st) ∧
    (o.aiQueries = .error () → o.poolErr = true →
      build_discovery_mix o source_tracks sas cta =
        (slot2 o source_tracks DState.init).discovered) := by
  refine ⟨fun hq hl => searchLoop_error_step o known cap k q qs st hq hl,
    fun ha => slot1_error_eq o known k st ha,
    fun hp => slot3_poolErr_eq o known sas cta k st hp,
    fun ha hp => ?_⟩
  simp only [build_discovery_mix]
  rw [slot1_error_eq o _ 0 DState.init ha]
  rw [slot3_poolErr_eq o _ sas cta _ _ hp]

theorem discovery_failures_degrade_witness :
    (searchLoop ⟨.error (), fun _ _ => .error (), id, true⟩ [] 50 ["q"] 0 DState.init
      = searchLoop ⟨.error (), fun _ _ => .error (), id, true⟩ [] 50 [] 1 DState.init) ∧
    (slot1 ⟨.error (), fun _ _ => .error (), id, true⟩ [] 0 DState.init = (0, DState.init)) ∧
    (slot3 ⟨.error (), fun _ _ => .error (), id, true⟩ [] [] [] 0 DState.init = DState.init) ∧
    (build_discovery_mix ⟨.error (), fun _ _ => .error (), id, true⟩ [⟨some "T1"⟩] [] []
      = (slot2 ⟨.error (), fun _ _ => .error (), id, true⟩ [⟨some "T1"⟩] DState.init).discovered) := by
  obtain ⟨h1, h2, h3, h4⟩ := discovery_failures_degrade
    ⟨.error (), fun _ _ => .error (), id, true⟩ [] 50 0 "q" [] DState.init [⟨some "T1"⟩] [] []
  exact ⟨h1 rfl (by decide), h2 rfl, h3 rfl, h4 rfl rfl⟩

/-- C5: in the concrete scenario where the known-track set is T1 and T2,
the single slot-1 AI query returns T1, T3, T4, the anchor shuffle yields
T1 then T2, and the single slot-3 fallback query returns T5, the function
returns exactly T3, T4, T1, T2, T5: the known tracks are excluded from
slot 1 but included by slot 2. -/
theorem discovery_scenario :
    build_discovery_mix
      ⟨.ok ["ai query"],
        fun k _ => if k = 0 then .ok ["T1", "T3", "T4"]
          else if k = 1 then .ok ["T5"] else .error (),
        id, false⟩
      [⟨some "T1"⟩, ⟨some "T2"⟩] [] [⟨none, ["indie"]⟩]
      = ["T3", "T4", "T1", "T2", "T5"] := by
  decide

/-- C6: if the query recommender call fails entirely, or the recommender
succeeds but every slot-1 search call fails, slot 1 contributes nothing and
slots 2 and 3 still execute normally on the same upstream responses. -/
theorem discovery_slot_independence (o : Oracle) (source_tracks : List Track)
    (sas cta : List Artist) :
    (o.aiQueries = .error () →
      build_discovery_mix o source_tracks sas cta =
        (slot3 o (source_tracks.filterMap trackUri?) sas cta 0
          (slot2 o source_tracks DState.init)).discovered) ∧
    (∀ qs : List String, o.aiQueries = .ok qs →
      (∀ i q, i < qs.length → o.search i q = .error ()) →
      build_discovery_mix o source_tracks sas cta =
        (slot3 o (source_tracks.filterMap trackUri?) sas cta qs.length
          (slot2 o source_tracks DState.init)).discovered) := by
  constructor
  · intro ha
    simp only [build_discovery_mix]
    rw [slot1_error_eq o _ 0 DState.init ha]
  · intro qs ha hs
    simp only [build_discovery_mix]
    have h1 : slot1 o (source_tracks.filterMap trackUri?) 0 DState.init
        = (qs.length, DState.init) := by
      unfold slot1; rw [ha]
      simpa using searchLoop_all_error o (source_tracks.filterMap trackUri?) 50 qs 0 DState.init
        (fun i q _ hi => hs i q (by omega)) (by decide)
    rw [h1]

theorem discovery_slot_independence_witness :
    (build_discovery_mix ⟨.error (), fun _ _ => .ok ["X"], id, false⟩ [⟨some "T1"⟩] [] []
      = (slot3 ⟨.error (), fun _ _ => .ok ["X"], id, false⟩
          (([⟨some "T1"⟩] : List Track).filterMap trackUri?) [] [] 0
          (slot2 ⟨.error (), fun _ _ => .ok ["X"], id, false⟩ [⟨some "T1"⟩]
            DState.init)).discovered) ∧
    (build_discovery_mix ⟨.ok ["q"], fun _ _ => .error (), id, false⟩ [⟨some "T1"⟩] [] []
      = (slot3 ⟨.ok ["q"], fun _ _ => .error (), id, false⟩
          (([⟨some "T1"⟩] : List Track).filterMap trackUri?) [] [] ((["q"] : List String).length)
          (slot2 ⟨.ok ["q"], fun _ _ => .error (), id, false⟩ [⟨some "T1"⟩]
            DState.init)).discovered) :=
  ⟨(discovery_slot_independence ⟨.error (), fun _ _ => .ok ["X"], id, false⟩
      [⟨some "T1"⟩] [] []).1 rfl,
    (discovery_slot_independence ⟨.ok ["q"], fun _ _ => .error (), id, false⟩
      [⟨some "T1"⟩] [] []).2 ["q"] rfl (fun _ _ _ => rfl)⟩

/-- C9: `build_discovery_mix` is deterministic up to the upstream responses
and the anchor-shuffle permutation: two runs with the same inputs, the same
recommender and search responses, the same shuffle permutation and the same
pool-assembly outcome return identical lists. -/
theorem discovery_deterministic (o₁ o₂ : Oracle) (source_tracks : List Track)
    (sas cta : List Artist)
    (hai : o₁.aiQueries = o₂.aiQueries)
    (hsearch : ∀ k q, o₁.search k q = o₂.search k q)
    (hshuffle : ∀ l, o₁.shuffle l = o₂.shuffle l)
    (hpool : o₁.poolErr = o₂.poolErr) :
    build_discovery_mix o₁ source_tracks sas cta
      = build_discovery_mix o₂ source_tracks sas cta := by
  have ho : o₁ = o₂ := by
    obtain ⟨a₁, s₁, sh₁, p₁⟩ := o₁
    obtain ⟨a₂, s₂, sh₂, p₂⟩ := o₂
    rw [Oracle.mk.injEq]
    exact ⟨hai, funext fun k => funext fun q => hsearch k q, funext hshuffle, hpool⟩
  rw [ho]

theorem discovery_deterministic_witness :
    build_discovery_mix ⟨.error (), fun _ _ => .error (), id, true⟩ [⟨some "T1"⟩] [] []
      = build_discovery_mix ⟨.error (), fun _ _q => .error (), fun l => id l, true⟩
          [⟨some "T1"⟩] [] [] :=
  discovery_deterministic ⟨.error (), fun _ _ => .error (), id, true⟩
    ⟨.error (), fun _ _q => .error (), fun l => id l, true⟩ [⟨some "T1"⟩] [] []
    rfl (fun _ _ => rfl) (fun _ => rfl) rfl

/-- C10: the heap-threaded translation of `build_discovery_mix` returns the
caller's three input lists unchanged — slot 2 shuffles a fresh deduplicated
copy of the anchor uris, never the inputs — and computes the same output as
the direct embedding. -/
theorem discovery_no_mutation (o : Oracle) (h : PyHeap) :
    (build_discovery_mix_heap o h).1 = h ∧
    (build_discovery_mix_heap o h).2 =
      build_discovery_mix o h.source_tracks h.source_artists h.current_top_artists :=
  ⟨rfl, rfl⟩

/-! Structural lemmas for the artist-spread development. -/

theorem gsize_nil (j : Nat) : gsize [] j = 0 := by
  cases j <;> rfl

theorem gsize_cons_zero (g : Option String × List String) (gt : KGroups) :
    gsize (g :: gt) 0 = g.2.length := rfl

theorem gsize_cons_succ (g : Option String × List String) (gt : KGroups) (j : Nat) :
    gsize (g :: gt) (j + 1) = gsize gt j := rfl

theorem totalLen_nil : totalLen [] = 0 := rfl

theorem totalLen_cons (g : Option String × List String) (gt : KGroups) :
    totalLen (g :: gt) = g.2.length + totalLen gt := by
  simp [totalLen]

theorem gsize_le_totalLen (kgs : KGroups) : ∀ j, gsize kgs j ≤ totalLen kgs := by
  induction kgs with
  | nil => intro j; rw [gsize_nil]; exact Nat.zero_le _
  | cons g gt ih =>
    intro j
    cases j with
    | zero => rw [gsize_cons_zero, totalLen_cons]; omega
    | succ n =>
      rw [gsize_cons_succ, totalLen_cons]
      have := ih n
      omega

theorem gsize_pair_le (kgs : KGroups) : ∀ i j, i ≠ j →
    gsize kgs i + gsize kgs j ≤ totalLen kgs := by
  induction kgs with
  | nil => intro i j _; rw [gsize_nil, gsize_nil, totalLen_nil]
  | cons g gt ih =>
    intro i j hij
    cases i with
    | zero =>
      cases j with
      | zero => exact absurd rfl hij
      | succ m =>
        rw [gsize_cons_zero, gsize_cons_succ, totalLen_cons]
        have := gsize_le_totalLen gt m
        omega
    | succ n =>
      cases j with
      | zero =>
        rw [gsize_cons_zero, gsize_cons_succ, totalLen_cons]
        have := gsize_le_totalLen gt n
        omega
      | succ m =>
        rw [gsize_cons_succ, gsize_cons_succ, totalLen_cons]
        have := ih n m (by omega)
        omega

theorem gsize_pos_lt (kgs : KGroups) (j : Nat) (h : gsize kgs j ≠ 0) : j < kgs.length := by
  by_contra hc
  have hd : kgs.getD j (none, []) = (none, []) := List.getD_eq_default _ _ (by omega)
  exact h (by unfold gsize; rw [hd]; rfl)

theorem allZero_totalLen (kgs : KGroups) :
    (∀ j, j < kgs.length → gsize kgs j = 0) → totalLen kgs = 0 := by
  induction kgs with
  | nil => intro _; rfl
  | cons g gt ih =>
    intro h
    rw [totalLen_cons]
    have h0 : g.2.length = 0 := h 0 (by simp)
    have ht : totalLen gt = 0 := ih (fun j hj => h (j + 1) (by simpa using hj))
    omega

theorem joinG_nil : joinG [] = [] := rfl

theorem joinG_cons (g : Option String × List String) (gt : KGroups) :
    joinG (g :: gt) = g.2 ++ joinG gt := by
  simp [joinG]

theorem joinG_append (k1 k2 : KGroups) : joinG (k1 ++ k2) = joinG k1 ++ joinG k2 := by
  simp [joinG]

theorem joinG_length (kgs : KGroups) : (joinG kgs).length = totalLen kgs := by
  induction kgs with
  | nil => rfl
  | cons g gt ih => rw [joinG_cons, totalLen_cons, List.length_append, ih]

theorem keyAt_set_self (kgs : KGroups) (j : Nat) (v : Option String × List String)
    (hj : j < kgs.length) : (kgs.set j v).getD j (none, []) = v := by
  simp [List.getD_eq_getElem?_getD, List.getElem?_set_self', hj]

theorem keyAt_set_other (kgs : KGroups) (i j : Nat) (v : Option String × List String)
    (h : j ≠ i) : (kgs.set j v).getD i (none, []) = kgs.getD i (none, []) := by
  simp [List.getD_eq_getElem?_getD, List.getElem?_set_ne h]

theorem popTrack_spec (kgs : KGroups) (j : Nat) (h : gsize kgs j ≠ 0) :
    ∃ x rest, (kgs.getD j (none, [])).2 = x :: rest ∧
      popTrack kgs j = (x, kgs.set j ((kgs.getD j (none, [])).1, rest)) := by
  unfold gsize at h
  obtain ⟨x, rest, hc⟩ : ∃ x rest, (kgs.getD j (none, [])).2 = x :: rest := by
    cases hcc : (kgs.getD j (none, [])).2 with
    | nil => exact absurd (by rw [hcc]; rfl) h
    | cons x rest => exact ⟨x, rest, rfl⟩
  refine ⟨x, rest, hc, ?_⟩
  unfold popTrack
  simp only [hc]

theorem popTrack_cons_succ (g : Option String × List String) (gt : KGroups) (j : Nat) :
    popTrack (g :: gt) (j + 1) = ((popTrack gt j).1, g :: (popTrack gt j).2) := by
  simp only [popTrack, List.getD_cons_succ]
  cases hc : (gt.getD j (none, [])).2 with
  | nil => rfl
  | cons x rest => rfl

theorem joinG_pop_perm (kgs : KGroups) : ∀ j, gsize kgs j ≠ 0 →
    List.Perm (joinG kgs) ((popTrack kgs j).1 :: joinG (popTrack kgs j).2) := by
  induction kgs with
  | nil => intro j h; rw [gsize_nil] at h; exact absurd rfl h
  | cons g gt ih =>
    intro j h
    cases j with
    | zero =>
      rw [gsize_cons_zero] at h
      cases hc : g.2 with
      | nil => exact absurd (by rw [hc]; rfl) h
      | cons x rest =>
        have hpop : popTrack (g :: gt) 0 = (x, (g.1, rest) :: gt) := by
          simp [popTrack, hc]
        rw [hpop, joinG_cons, joinG_cons, hc]
        exact List.Perm.refl _
    | succ n =>
      rw [gsize_cons_succ] at h
      rw [popTrack_cons_succ, joinG_cons, joinG_cons]
      exact List.Perm.trans (List.Perm.append_left g.2 (ih n h)) List.perm_middle

theorem eligibleIdx_mem (kgs : KGroups) (p : Option Nat) (j : Nat) :
    j ∈ eligibleIdx kgs p ↔ j < kgs.length ∧ some j ≠ p ∧ gsize kgs j ≠ 0 := by
  unfold eligibleIdx
  simp [List.mem_filter, List.mem_range, and_assoc]

theorem pick_some (kgs : KGroups) (p : Option Nat) (j : Nat) (h : pick kgs p = some j) :
    gsize kgs j ≠ 0 := by
  unfold pick at h
  cases hpi : pickIdx kgs p with
  | some j' =>
    rw [hpi] at h
    cases h
    have hm := List.argmax_mem hpi
    exact ((eligibleIdx_mem kgs p j).mp hm).2.2
  | none =>
    rw [hpi] at h
    cases p with
    | none => simp at h
    | some i =>
      simp only at h
      by_cases hg : gsize kgs i ≠ 0
      · rw [if_pos hg] at h; cases h; exact hg
      · rw [if_neg hg] at h; cases h

theorem pick_none_totalLen (kgs : KGroups) (p : Option Nat) (h : pick kgs p = none) :
    totalLen kgs = 0 := by
  unfold pick at h
  cases hpi : pickIdx kgs p with
  | some j' => rw [hpi] at h; cases h
  | none =>
    have helig : eligibleIdx kgs p = [] := List.argmax_eq_none.mp hpi
    have hall : ∀ j, j < kgs.length → some j ≠ p → gsize kgs j = 0 := by
      intro j hj hne
      by_contra hg
      have : j ∈ eligibleIdx kgs p := (eligibleIdx_mem kgs p j).mpr ⟨hj, hne, hg⟩
      rw [helig] at this
      exact absurd this (List.not_mem_nil j)
    rw [hpi] at h
    cases p with
    | none =>
      exact allZero_totalLen kgs (fun j hj => hall j hj (by simp))
    | some i =>
      simp only at h
      by_cases hg : gsize kgs i ≠ 0
      · rw [if_pos hg] at h; cases h
      · refine allZero_totalLen kgs (fun j hj => ?_)
        by_cases hji : j = i
        · subst hji; omega
        · exact hall j hj (by simpa using hji)

theorem totalLen_set (kgs : KGroups) : ∀ (j : Nat) (v : Option String × List String),
    j < kgs.length → totalLen (kgs.set j v) + gsize kgs j = totalLen kgs + v.2.length := by
  induction kgs with
  | nil => intro j v hj; simp at hj
  | cons g gt ih =>
    intro j v hj
    cases j with
    | zero =>
      simp only [List.set]
      rw [totalLen_cons, totalLen_cons, gsize_cons_zero]
      omega
    | succ n =>
      simp only [List.set]
      rw [totalLen_cons, totalLen_cons, gsize_cons_succ]
      have := ih n v (by simpa using hj)
      omega

theorem popTrack_totalLen (kgs : KGroups) (j : Nat) (h : gsize kgs j ≠ 0) :
    totalLen (popTrack kgs j).2 + 1 = totalLen kgs := by
  obtain ⟨x, rest, hx, hpop⟩ := popTrack_spec kgs j h
  have hj : j < kgs.length := gsize_pos_lt kgs j h
  have := totalLen_set kgs j ((kgs.getD j (none, [])).1, rest) hj
  rw [hpop]
  simp only at this ⊢
  have hg : gsize kgs j = rest.length + 1 := by rw [gsize, hx]; rfl
  omega

theorem greedyRun_perm : ∀ (fuel : Nat) (kgs : KGroups) (p : Option Nat),
    totalLen kgs ≤ fuel → List.Perm (greedyRun fuel kgs p) (joinG kgs) := by
  intro fuel
  induction fuel with
  | zero =>
    intro kgs p h
    have h0 : (joinG kgs).length = 0 := by rw [joinG_length]; omega
    rw [List.length_eq_zero.mp h0]
    exact List.Perm.refl _
  | succ n ih =>
    intro kgs p h
    rw [greedyRun]
    cases hp : pick kgs p with
    | none =>
      have h0 : (joinG kgs).length = 0 := by
        rw [joinG_length, pick_none_totalLen kgs p hp]
      rw [List.length_eq_zero.mp h0]
    | some j =>
      have hg := pick_some kgs p j hp
      have htot := popTrack_totalLen kgs j hg
      have hrec := ih (popTrack kgs j).2 (some j) (by omega)
      exact List.Perm.trans (List.Perm.cons _ hrec)
        (List.Perm.symm (joinG_pop_perm kgs j hg))

theorem insertKeyed_join (a t : String) : ∀ kgs : KGroups,
    List.Perm (joinG (insertKeyed a t kgs)) (joinG kgs ++ [t]) := by
  intro kgs
  induction kgs with
  | nil =>
    rw [insertKeyed, joinG_cons, joinG_nil]
    simp
  | cons g gt ih =>
    rw [insertKeyed]
    split
    · rw [joinG_cons, joinG_cons, List.append_assoc, List.append_assoc]
      exact List.Perm.append_left g.2 (List.perm_append_comm)
    · rw [joinG_cons, joinG_cons, List.append_assoc]
      exact List.Perm.append_left g.2 ih

theorem insertTrack_join (am : String → Option String) (kgs : KGroups) (t : String) :
    List.Perm (joinG (insertTrack am kgs t)) (joinG kgs ++ [t]) := by
  unfold insertTrack
  cases am t with
  | none =>
    rw [joinG_append, joinG_cons, joinG_nil]
    exact List.Perm.refl _
  | some a => exact insertKeyed_join a t kgs

theorem buildGroups_join_aux (am : String → Option String) : ∀ (ts : List String) (kgs : KGroups),
    List.Perm (joinG (ts.foldl (insertTrack am) kgs)) (joinG kgs ++ ts) := by
  intro ts
  induction ts with
  | nil => intro kgs; simp
  | cons t rest ih =>
    intro kgs
    rw [List.foldl_cons]
    refine List.Perm.trans (ih (insertTrack am kgs t)) ?_
    have h1 : List.Perm (joinG (insertTrack am kgs t) ++ rest) ((joinG kgs ++ [t]) ++ rest) :=
      List.Perm.append_right rest (insertTrack_join am kgs t)
    refine List.Perm.trans h1 ?_
    rw [List.append_assoc, List.singleton_append]

theorem buildGroups_join (am : String → Option String) (tracks : List String) :
    List.Perm (joinG (buildGroups am tracks)) tracks := by
  have := buildGroups_join_aux am tracks []
  rw [joinG_nil, List.nil_append] at this
  exact this

theorem spread_perm (tracks : List String) (artist_map : List (String × String)) :
    List.Perm (_spread_tracks_by_artist tracks artist_map) tracks := by
  unfold _spread_tracks_by_artist
  refine List.Perm.trans (greedyRun_perm _ _ none (le_refl _)) ?_
  exact buildGroups_join (lookupArtist artist_map) tracks

/-! Well-formedness of the keyed groups and its preservation by `popTrack`. -/

theorem keyAt_nil (j : Nat) : keyAt [] j = none := by
  cases j <;> rfl

theorem keyAt_cons_zero (g : Option String × List String) (gt : KGroups) :
    keyAt (g :: gt) 0 = g.1 := rfl

theorem keyAt_cons_succ (g : Option String × List String) (gt : KGroups) (j : Nat) :
    keyAt (g :: gt) (j + 1) = keyAt gt j := rfl

theorem keyAt_out_of_range (kgs : KGroups) (j : Nat) (h : kgs.length ≤ j) :
    keyAt kgs j = none := by
  unfold keyAt
  rw [List.getD_eq_default _ _ h]

theorem popTrack_zero (kgs : KGroups) (j : Nat) (h : gsize kgs j = 0) :
    (popTrack kgs j).2 = kgs := by
  unfold gsize at h
  have hnil : (kgs.getD j (none, [])).2 = [] := List.length_eq_zero.mp h
  unfold popTrack
  simp only [hnil]

theorem popTrack_length (kgs : KGroups) (j : Nat) :
    (popTrack kgs j).2.length = kgs.length := by
  by_cases h : gsize kgs j = 0
  · rw [popTrack_zero kgs j h]
  · obtain ⟨x, rest, hc, hpop⟩ := popTrack_spec kgs j h
    rw [hpop]
    exact List.length_set kgs j _

theorem popTrack_keyAt (kgs : KGroups) (j : Nat) :
    ∀ i, keyAt (popTrack kgs j).2 i = keyAt kgs i := by
  intro i
  by_cases h : gsize kgs j = 0
  · rw [popTrack_zero kgs j h]
  · obtain ⟨x, rest, hc, hpop⟩ := popTrack_spec kgs j h
    rw [hpop]
    unfold keyAt
    by_cases hij : i = j
    · subst hij
      rw [keyAt_set_self kgs i _ (gsize_pos_lt kgs i h)]
    · rw [keyAt_set_other kgs i j _ (Ne.symm hij)]

theorem popTrack_gsize_self (kgs : KGroups) (j : Nat) (h : gsize kgs j ≠ 0) :
    gsize (popTrack kgs j).2 j + 1 = gsize kgs j := by
  obtain ⟨x, rest, hc, hpop⟩ := popTrack_spec kgs j h
  rw [hpop]
  unfold gsize
  rw [keyAt_set_self kgs j _ (gsize_pos_lt kgs j h), hc]
  rfl

theorem popTrack_gsize_other (kgs : KGroups) (j i : Nat) (hij : i ≠ j) :
    gsize (popTrack kgs j).2 i = gsize kgs i := by
  by_cases h : gsize kgs j = 0
  · rw [popTrack_zero kgs j h]
  · obtain ⟨x, rest, hc, hpop⟩ := popTrack_spec kgs j h
    rw [hpop]
    unfold gsize
    rw [keyAt_set_other kgs i j _ (Ne.symm hij)]

theorem popTrack_ElemKeysP (am : String → Option String) (kgs : KGroups) (j : Nat)
    (h : ElemKeysP am kgs) : ElemKeysP am (popTrack kgs j).2 := by
  by_cases hz : gsize kgs j = 0
  · rw [popTrack_zero kgs j hz]; exact h
  · obtain ⟨x, rest, hc, hpop⟩ := popTrack_spec kgs j hz
    intro i t ht
    rw [popTrack_keyAt kgs j i]
    rw [hpop] at ht
    by_cases hij : i = j
    · subst hij
      rw [keyAt_set_self kgs i _ (gsize_pos_lt kgs i hz)] at ht
      exact h i t (by rw [hc]; exact List.mem_cons_of_mem x ht)
    · rw [keyAt_set_other kgs i j _ (Ne.symm hij)] at ht
      exact h i t ht

theorem popTrack_KeyDistinctP (kgs : KGroups) (j : Nat) (h : KeyDistinctP kgs) :
    KeyDistinctP (popTrack kgs j).2 := by
  intro i i' a hne h1
  rw [popTrack_keyAt kgs j] at h1 ⊢
  exact h i i' a hne h1

theorem popTrack_NoneSingleP (kgs : KGroups) (j : Nat) (h : NoneSingleP kgs) :
    NoneSingleP (popTrack kgs j).2 := by
  intro i hk
  rw [popTrack_keyAt kgs j] at hk
  by_cases hij : i = j
  · subst hij
    by_cases hz : gsize kgs i = 0
    · rw [popTrack_zero kgs i hz]; exact h i hk
    · have h1 := popTrack_gsize_self kgs i hz
      have h2 := h i hk
      omega
  · rw [popTrack_gsize_other kgs j i hij]
    exact h i hk

theorem popTrack_emit_key (am : String → Option String) (kgs : KGroups) (j : Nat)
    (h : gsize kgs j ≠ 0) (hE : ElemKeysP am kgs) :
    am (popTrack kgs j).1 = keyAt kgs j := by
  obtain ⟨x, rest, hc, hpop⟩ := popTrack_spec kgs j h
  rw [hpop]
  exact hE j x (by rw [hc]; exact List.mem_cons_self x rest)

theorem mem_of_getD (kgs : KGroups) (j : Nat) (hj : j < kgs.length) :
    kgs.getD j (none, []) ∈ kgs := by
  rw [List.getD_eq_getElem kgs (none, []) hj]
  exact List.getElem_mem hj

theorem ElemKeysP_of_mem (am : String → Option String) (kgs : KGroups)
    (h : ∀ g ∈ kgs, ∀ t ∈ g.2, am t = g.1) : ElemKeysP am kgs := by
  intro j t ht
  by_cases hj : j < kgs.length
  · exact h _ (mem_of_getD kgs j hj) t ht
  · rw [List.getD_eq_default _ _ (by omega)] at ht
    simp at ht

theorem NoneSingleP_of_mem (kgs : KGroups)
    (h : ∀ g ∈ kgs, g.1 = none → g.2.length ≤ 1) : NoneSingleP kgs := by
  intro j hk
  by_cases hj : j < kgs.length
  · exact h _ (mem_of_getD kgs j hj) hk
  · unfold gsize
    rw [List.getD_eq_default _ _ (by omega)]
    exact Nat.zero_le _

theorem KeyDistinctP_of_pairwise (kgs : KGroups)
    (h : List.Pairwise (fun g g' => ∀ a : String, g.1 = some a → g'.1 ≠ some a) kgs) :
    KeyDistinctP kgs := by
  intro i j a hne hi hj
  by_cases hiL : i < kgs.length
  · by_cases hjL : j < kgs.length
    · rw [List.pairwise_iff_getElem] at h
      have hig : keyAt kgs i = kgs[i].1 := by
        unfold keyAt; rw [List.getD_eq_getElem kgs (none, []) hiL]
      have hjg : keyAt kgs j = kgs[j].1 := by
        unfold keyAt; rw [List.getD_eq_getElem kgs (none, []) hjL]
      rcases Nat.lt_trichotomy i j with hlt | heq | hgt
      · exact (h i j hiL hjL hlt) a (by rw [← hig]; exact hi) (by rw [← hjg]; exact hj)
      · exact hne heq
      · exact (h j i hjL hiL hgt) a (by rw [← hjg]; exact hj) (by rw [← hig]; exact hi)
    · rw [keyAt_out_of_range kgs j (by omega)] at hj
      cases hj
  · rw [keyAt_out_of_range kgs i (by omega)] at hi
    cases hi

/-! The groups built by `buildGroups` are well formed. -/

theorem insertKeyed_elem (a t : String) (am : String → Option String) (hat : am t = some a) :
    ∀ kgs : KGroups, (∀ g ∈ kgs, ∀ u ∈ g.2, am u = g.1) →
      ∀ g ∈ insertKeyed a t kgs, ∀ u ∈ g.2, am u = g.1 := by
  intro kgs
  induction kgs with
  | nil =>
    intro _ g hg u hu
    rw [insertKeyed, List.mem_singleton] at hg
    subst hg
    rw [List.mem_singleton] at hu
    subst hu
    exact hat
  | cons g0 gt ih =>
    intro h g hg u hu
    rw [insertKeyed] at hg
    by_cases hk : g0.1 = some a
    · rw [if_pos hk] at hg
      rcases List.mem_cons.mp hg with rfl | hgt
      · rcases List.mem_append.mp hu with h1 | h1
        · exact h g0 (List.mem_cons_self _ _) u h1
        · rw [List.mem_singleton] at h1
          subst h1
          rw [hat, hk]
      · exact h g (List.mem_cons_of_mem g0 hgt) u hu
    · rw [if_neg hk] at hg
      rcases List.mem_cons.mp hg with rfl | hgt
      · exact h g (List.mem_cons_self _ _) u hu
      · exact ih (fun g' hg' => h g' (List.mem_cons_of_mem g0 hg')) g hgt u hu

theorem insertTrack_elem (am : String → Option String) (kgs : KGroups) (t : String)
    (h : ∀ g ∈ kgs, ∀ u ∈ g.2, am u = g.1) :
    ∀ g ∈ insertTrack am kgs t, ∀ u ∈ g.2, am u = g.1 := by
  unfold insertTrack
  cases ham : am t with
  | none =>
    intro g hg u hu
    rcases List.mem_append.mp hg with h1 | h1
    · exact h g h1 u hu
    · rw [List.mem_singleton] at h1
      subst h1
      rw [List.mem_singleton] at hu
      subst hu
      exact ham
  | some a => exact insertKeyed_elem a t am ham kgs h

theorem buildGroups_elem (am : String → Option String) (tracks : List String) :
    ∀ g ∈ buildGroups am tracks, ∀ u ∈ g.2, am u = g.1 := by
  unfold buildGroups
  suffices hgen : ∀ (ts : List String) (kgs : KGroups),
      (∀ g ∈ kgs, ∀ u ∈ g.2, am u = g.1) →
      ∀ g ∈ ts.foldl (insertTrack am) kgs, ∀ u ∈ g.2, am u = g.1 by
    exact hgen tracks [] (by simp)
  intro ts
  induction ts with
  | nil => intro kgs h; simpa using h
  | cons t rest ih =>
    intro kgs h
    rw [List.foldl_cons]
    exact ih (insertTrack am kgs t) (insertTrack_elem am kgs t h)

theorem insertKeyed_keys_strong (a t : String) : ∀ kgs : KGroups,
    (some a ∈ kgs.map Prod.fst ∧
      (insertKeyed a t kgs).map Prod.fst = kgs.map Prod.fst) ∨
    (some a ∉ kgs.map Prod.fst ∧
      (insertKeyed a t kgs).map Prod.fst = kgs.map Prod.fst ++ [some a]) := by
  intro kgs
  induction kgs with
  | nil => right; exact ⟨by simp, rfl⟩
  | cons g0 gt ih =>
    rw [insertKeyed]
    by_cases hk : g0.1 = some a
    · left
      rw [if_pos hk]
      exact ⟨by simp [← hk], by simp⟩
    · rw [if_neg hk]
      rcases ih with ⟨hm, he⟩ | ⟨hm, he⟩
      · left
        exact ⟨by simp [hm], by simp [he]⟩
      · right
        refine ⟨?_, by simp [he]⟩
        simp only [List.map_cons, List.mem_cons]
        rintro (hh | hh)
        · exact hk hh.symm
        · exact hm hh

theorem pairwise_keys_append (ks : List (Option String)) (a : String)
    (h : List.Pairwise RK ks) (hnm : some a ∉ ks) :
    List.Pairwise RK (ks ++ [some a]) := by
  rw [List.pairwise_append]
  refine ⟨h, List.pairwise_singleton RK (some a), ?_⟩
  intro k hk k' hk'
  rw [List.mem_singleton] at hk'
  subst hk'
  intro b hkb hab
  rw [hkb] at hk
  rw [hab] at hnm
  exact hnm hk

theorem pairwise_keys_append_none (ks : List (Option String))
    (h : List.Pairwise RK ks) : List.Pairwise RK (ks ++ [none]) := by
  rw [List.pairwise_append]
  refine ⟨h, List.pairwise_singleton RK none, ?_⟩
  intro k _ k' hk'
  rw [List.mem_singleton] at hk'
  subst hk'
  intro b _ hb
  cases hb

theorem insertTrack_pairwise (am : String → Option String) (kgs : KGroups) (t : String)
    (h : List.Pairwise RK (kgs.map Prod.fst)) :
    List.Pairwise RK ((insertTrack am kgs t).map Prod.fst) := by
  unfold insertTrack
  cases ham : am t with
  | none =>
    rw [List.map_append]
    exact pairwise_keys_append_none _ h
  | some a =>
    rcases insertKeyed_keys_strong a t kgs with ⟨_, he⟩ | ⟨hnm, he⟩
    · rw [he]; exact h
    · rw [he]; exact pairwise_keys_append _ a h hnm

theorem buildGroups_pairwise (am : String → Option String) (tracks : List String) :
    List.Pairwise RK ((buildGroups am tracks).map Prod.fst) := by
  unfold buildGroups
  suffices hgen : ∀ (ts : List String) (kgs : KGroups),
      List.Pairwise RK (kgs.map Prod.fst) →
      List.Pairwise RK ((ts.foldl (insertTrack am) kgs).map Prod.fst) by
    exact hgen tracks [] (by simp)
  intro ts
  induction ts with
  | nil => intro kgs h; simpa using h
  | cons t rest ih =>
    intro kgs h
    rw [List.foldl_cons]
    exact ih (insertTrack am kgs t) (insertTrack_pairwise am kgs t h)

theorem insertKeyed_noneSingle (a t : String) : ∀ kgs : KGroups,
    (∀ g ∈ kgs, g.1 = none → g.2.length ≤ 1) →
    ∀ g ∈ insertKeyed a t kgs, g.1 = none → g.2.length ≤ 1 := by
  intro kgs
  induction kgs with
  | nil =>
    intro _ g hg hk
    rw [insertKeyed, List.mem_singleton] at hg
    subst hg
    cases hk
  | cons g0 gt ih =>
    intro h g hg hk
    rw [insertKeyed] at hg
    by_cases hk0 : g0.1 = some a
    · rw [if_pos hk0] at hg
      rcases List.mem_cons.mp hg with rfl | hgt
      · rw [hk0] at hk
        cases hk
      · exact h g (List.mem_cons_of_mem g0 hgt) hk
    · rw [if_neg hk0] at hg
      rcases List.mem_cons.mp hg with rfl | hgt
      · exact h g (List.mem_cons_self _ _) hk
      · exact ih (fun g' hg' => h g' (List.mem_cons_of_mem g0 hg')) g hgt hk

theorem insertTrack_noneSingle (am : String → Option String) (kgs : KGroups) (t : String)
    (h : ∀ g ∈ kgs, g.1 = none → g.2.length ≤ 1) :
    ∀ g ∈ insertTrack am kgs t, g.1 = none → g.2.length ≤ 1 := by
  unfold insertTrack
  cases ham : am t with
  | none =>
    intro g hg hk
    rcases List.mem_append.mp hg with h1 | h1
    · exact h g h1 hk
    · rw [List.mem_singleton] at h1
      subst h1
      rfl
  | some a => exact insertKeyed_noneSingle a t kgs h

theorem buildGroups_noneSingle (am : String → Option String) (tracks : List String) :
    ∀ g ∈ buildGroups am tracks, g.1 = none → g.2.length ≤ 1 := by
  unfold buildGroups
  suffices hgen : ∀ (ts : List String) (kgs : KGroups),
      (∀ g ∈ kgs, g.1 = none → g.2.length ≤ 1) →
      ∀ g ∈ ts.foldl (insertTrack am) kgs, g.1 = none → g.2.length ≤ 1 by
    exact hgen tracks [] (by simp)
  intro ts
  induction ts with
  | nil => intro kgs h; simpa using h
  | cons t rest ih =>
    intro kgs h
    rw [List.foldl_cons]
    exact ih (insertTrack am kgs t) (insertTrack_noneSingle am kgs t h)

theorem buildGroups_ElemKeysP (am : String → Option String) (tracks : List String) :
    ElemKeysP am (buildGroups am tracks) :=
  ElemKeysP_of_mem am _ (buildGroups_elem am tracks)

theorem buildGroups_KeyDistinctP (am : String → Option String) (tracks : List String) :
    KeyDistinctP (buildGroups am tracks) := by
  apply KeyDistinctP_of_pairwise
  have h := buildGroups_pairwise am tracks
  rw [List.pairwise_map] at h
  exact h

theorem buildGroups_NoneSingleP (am : String → Option String) (tracks : List String) :
    NoneSingleP (buildGroups am tracks) :=
  NoneSingleP_of_mem _ (buildGroups_noneSingle am tracks)

/-! Behaviour of `pick` and counting of adjacent collisions. -/

theorem totalLen_single (kgs : KGroups) : ∀ i : Nat,
    (∀ j, j < kgs.length → j ≠ i → gsize kgs j = 0) → totalLen kgs = gsize kgs i := by
  induction kgs with
  | nil => intro i _; rw [totalLen_nil, gsize_nil]
  | cons g gt ih =>
    intro i h
    cases i with
    | zero =>
      rw [totalLen_cons, gsize_cons_zero]
      have ht : totalLen gt = 0 := allZero_totalLen gt (fun j hj => by
        have := h (j + 1) (by simpa using hj) (by omega)
        rwa [gsize_cons_succ] at this)
      omega
    | succ n =>
      rw [totalLen_cons, gsize_cons_succ]
      have h0 : g.2.length = 0 := by
        have := h 0 (by simp) (by omega)
        rwa [gsize_cons_zero] at this
      have := ih n (fun j hj hne => by
        have := h (j + 1) (by simpa using hj) (by omega)
        rwa [gsize_cons_succ] at this)
      omega

theorem pickIdx_spec (kgs : KGroups) (p : Option Nat) (j : Nat)
    (h : pickIdx kgs p = some j) :
    j < kgs.length ∧ some j ≠ p ∧ gsize kgs j ≠ 0 ∧
      ∀ j', some j' ≠ p → gsize kgs j' ≠ 0 → gsize kgs j' ≤ gsize kgs j := by
  have hm : j ∈ eligibleIdx kgs p := List.argmax_mem h
  obtain ⟨h1, h2, h3⟩ := (eligibleIdx_mem kgs p j).mp hm
  refine ⟨h1, h2, h3, ?_⟩
  intro j' hp' hg'
  have hj'len : j' < kgs.length := gsize_pos_lt kgs j' hg'
  have hmem : j' ∈ eligibleIdx kgs p := (eligibleIdx_mem kgs p j').mpr ⟨hj'len, hp', hg'⟩
  exact List.le_of_mem_argmax hmem h

theorem pickIdx_none_gsize (kgs : KGroups) (p : Option Nat) (h : pickIdx kgs p = none) :
    ∀ j, j < kgs.length → some j ≠ p → gsize kgs j = 0 := by
  have helig : eligibleIdx kgs p = [] := List.argmax_eq_none.mp h
  intro j hj hne
  by_contra hg
  have hmem : j ∈ eligibleIdx kgs p := (eligibleIdx_mem kgs p j).mpr ⟨hj, hne, hg⟩
  rw [helig] at hmem
  exact absurd hmem (List.not_mem_nil j)

theorem adjFrom_cons_zero (am : String → Option String) (pk : Option String)
    (x : String) (rest : List String)
    (h : ∀ a : String, pk = some a → am x ≠ some a) :
    adjFrom am pk (x :: rest) = adjFrom am (am x) rest := by
  cases hpk : pk with
  | none =>
    cases ham : am x <;> simp [adjFrom, ham]
  | some a =>
    cases ham : am x with
    | none => simp [adjFrom, ham]
    | some b =>
      have hba : b ≠ a := fun hh => (h a hpk) (by rw [ham, hh])
      have hab : ¬(a = b) := fun hh => hba hh.symm
      simp [adjFrom, ham, hab]

theorem adjFrom_cons_one (am : String → Option String) (x : String) (rest : List String)
    (a : String) (hx : am x = some a) :
    adjFrom am (some a) (x :: rest) = 1 + adjFrom am (am x) rest := by
  simp [adjFrom, hx]

theorem adjFrom_eq_adjCollisions (am : String → Option String) :
    ∀ (l : List String) (x : String), adjFrom am (am x) l = adjCollisions am (x :: l) := by
  intro l
  induction l with
  | nil => intro x; rfl
  | cons y rest ih =>
    intro x
    by_cases hs : ∃ a, am x = some a ∧ am y = some a
    · obtain ⟨a, hx, hy⟩ := hs
      rw [hx, adjFrom_cons_one am y rest a hy, ih y, adjCollisions]
      have hsa : sameArtist am x y = true := by
        unfold sameArtist
        rw [hx, hy]
        simp
      rw [hsa]
      simp
    · rw [adjFrom_cons_zero am (am x) y rest (fun a ha hya => hs ⟨a, ha, hya⟩),
        ih y, adjCollisions]
      have hsa : sameArtist am x y = false := by
        unfold sameArtist
        cases hx : am x with
        | none => cases am y <;> rfl
        | some a =>
          cases hy : am y with
          | none => rfl
          | some b =>
            by_cases hab : a = b
            · subst hab
              exact absurd ⟨a, hx, hy⟩ hs
            · simp [hab]
      rw [hsa]
      simp

theorem adjFrom_none_eq (am : String → Option String) (l : List String) :
    adjFrom am none l = adjCollisions am l := by
  cases l with
  | nil => rfl
  | cons x rest =>
    rw [adjFrom_cons_zero am none x rest (fun a ha => by cases ha)]
    exact adjFrom_eq_adjCollisions am rest x

theorem greedy_zero (am : String → Option String) : ∀ (fuel : Nat) (kgs : KGroups)
    (p : Option Nat) (pk : Option String),
    totalLen kgs ≤ fuel →
    (∀ j, some j ≠ p → 2 * gsize kgs j ≤ totalLen kgs + 1) →
    (∀ i, p = some i → 2 * gsize kgs i ≤ totalLen kgs) →
    ElemKeysP am kgs → KeyDistinctP kgs → PrevKeyOK kgs p pk →
    adjFrom am pk (greedyRun fuel kgs p) = 0 := by
  intro fuel
  induction fuel with
  | zero => intro kgs p pk _ _ _ _ _ _; rfl
  | succ n ih =>
    intro kgs p pk hfuel hb1 hb2 hE hK hP
    rw [greedyRun]
    cases hp : pick kgs p with
    | none => rfl
    | some j =>
      have hj : pickIdx kgs p = some j := by
        unfold pick at hp
        cases hpi : pickIdx kgs p with
        | some j' => rw [hpi] at hp; cases hp; rfl
        | none =>
          exfalso
          rw [hpi] at hp
          cases p with
          | none => simp at hp
          | some i =>
            simp only at hp
            by_cases hg : gsize kgs i ≠ 0
            · rw [if_pos hg] at hp
              cases hp
              have hall := pickIdx_none_gsize kgs (some j) hpi
              have htot : totalLen kgs = gsize kgs j :=
                totalLen_single kgs j (fun j' hj' hne => hall j' hj' (by simpa using hne))
              have := hb2 j rfl
              omega
            · rw [if_neg hg] at hp
              cases hp
      obtain ⟨hjlen, hjp, hjg, hjmax⟩ := pickIdx_spec kgs p j hj
      have hemit : am (popTrack kgs j).1 = keyAt kgs j := popTrack_emit_key am kgs j hjg hE
      have hlen' := popTrack_totalLen kgs j hjg
      have hself := popTrack_gsize_self kgs j hjg
      have hstep : adjFrom am pk
          ((popTrack kgs j).1 :: greedyRun n (popTrack kgs j).2 (some j)) =
          adjFrom am (am (popTrack kgs j).1) (greedyRun n (popTrack kgs j).2 (some j)) := by
        apply adjFrom_cons_zero
        intro a hpk hxa
        cases p with
        | none =>
          have hnone : pk = none := hP
          rw [hnone] at hpk
          cases hpk
        | some i =>
          have hpki : pk = keyAt kgs i := hP
          have hji : j ≠ i := fun hh => hjp (by rw [hh])
          have hkj : keyAt kgs j = some a := by rw [← hemit]; exact hxa
          have hki : keyAt kgs i = some a := by rw [← hpki]; exact hpk
          exact hK i j a (Ne.symm hji) hki hkj
      rw [hstep]
      apply ih (popTrack kgs j).2 (some j) (am (popTrack kgs j).1)
      · omega
      · intro j' hne
        have hj'j : j' ≠ j := fun hh => hne (by rw [hh])
        rw [popTrack_gsize_other kgs j j' hj'j]
        by_cases hz : gsize kgs j' = 0
        · omega
        · by_cases hp' : some j' = p
          · cases p with
            | none => cases hp'
            | some i =>
              have : j' = i := by
                have := hp'
                simp at this
                exact this
              subst this
              have := hb2 j' rfl
              omega
          · have h1 := hjmax j' hp' hz
            have h2 := gsize_pair_le kgs j' j hj'j
            omega
      · intro i' hi'
        have hji' : i' = j := by
          have := hi'
          simp at this
          exact this.symm
        subst hji'
        have := hb1 i' hjp
        omega
      · exact popTrack_ElemKeysP am kgs j hE
      · exact popTrack_KeyDistinctP kgs j hK
      · show am (popTrack kgs j).1 = keyAt (popTrack kgs j).2 j
        rw [hemit, popTrack_keyAt kgs j j]

theorem greedyRun_total_zero : ∀ (fuel : Nat) (kgs : KGroups) (p : Option Nat),
    totalLen kgs = 0 → greedyRun fuel kgs p = [] := by
  intro fuel kgs p h
  cases fuel with
  | zero => rfl
  | succ n =>
    rw [greedyRun]
    have hpick : pick kgs p = none := by
      unfold pick
      have hpi : pickIdx kgs p = none := by
        apply List.argmax_eq_none.mpr
        rw [List.eq_nil_iff_forall_not_mem]
        intro j' hmem
        obtain ⟨_, _, hg⟩ := (eligibleIdx_mem _ _ _).mp hmem
        have := gsize_le_totalLen kgs j'
        omega
      rw [hpi]
      cases p with
      | none => rfl
      | some i =>
        have hz : gsize kgs i = 0 := by
          have := gsize_le_totalLen kgs i
          omega
        simp [hz]
    rw [hpick]

theorem greedy_major (am : String → Option String) : ∀ (fuel : Nat) (kgs : KGroups)
    (p : Option Nat) (pk : Option String) (jM : Nat) (A : String),
    totalLen kgs ≤ fuel →
    keyAt kgs jM = some A →
    (p = some jM → totalLen kgs + 1 ≤ 2 * gsize kgs jM) →
    (p ≠ some jM → totalLen kgs + 2 ≤ 2 * gsize kgs jM) →
    ElemKeysP am kgs → KeyDistinctP kgs → PrevKeyOK kgs p pk →
    adjFrom am pk (greedyRun fuel kgs p) + totalLen kgs +
      (if p = some jM then 0 else 1) = 2 * gsize kgs jM := by
  intro fuel
  induction fuel with
  | zero =>
    intro kgs p pk jM A hfuel _ h1 h2 _ _ _
    have hle := gsize_le_totalLen kgs jM
    by_cases hpj : p = some jM
    · have := h1 hpj; omega
    · have := h2 hpj; omega
  | succ n ih =>
    intro kgs p pk jM A hfuel hkey h1 h2 hE hK hP
    by_cases hpj : p = some jM
    · subst hpj
      have hpk : pk = some A := by
        have : pk = keyAt kgs jM := hP
        rw [this, hkey]
      have hMpos : gsize kgs jM ≠ 0 := by
        have := h1 rfl
        omega
      by_cases hOthers : ∀ j', j' < kgs.length → j' ≠ jM → gsize kgs j' = 0
      · -- only the majority group has members left: forced collision
        have htot : totalLen kgs = gsize kgs jM := totalLen_single kgs jM hOthers
        have hpick : pick kgs (some jM) = some jM := by
          unfold pick
          have hpi : pickIdx kgs (some jM) = none := by
            apply List.argmax_eq_none.mpr
            rw [List.eq_nil_iff_forall_not_mem]
            intro j' hmem
            obtain ⟨hlen, hne, hg⟩ := (eligibleIdx_mem _ _ _).mp hmem
            exact hg (hOthers j' hlen (by simpa using hne))
          rw [hpi]
          simp [hMpos]
        rw [greedyRun, hpick]
        have hemit : am (popTrack kgs jM).1 = keyAt kgs jM :=
          popTrack_emit_key am kgs jM hMpos hE
        have hx : am (popTrack kgs jM).1 = some A := by rw [hemit, hkey]
        rw [hpk, adjFrom_cons_one am (popTrack kgs jM).1 _ A hx]
        have hself := popTrack_gsize_self kgs jM hMpos
        have hlen' := popTrack_totalLen kgs jM hMpos
        by_cases hM2 : 2 ≤ gsize kgs jM
        · have hrec := ih (popTrack kgs jM).2 (some jM) (am (popTrack kgs jM).1) jM A
            (by omega)
            (by rw [popTrack_keyAt kgs jM jM]; exact hkey)
            (fun _ => by omega)
            (fun hc => absurd rfl hc)
            (popTrack_ElemKeysP am kgs jM hE)
            (popTrack_KeyDistinctP kgs jM hK)
            (by show am (popTrack kgs jM).1 = keyAt (popTrack kgs jM).2 jM
                rw [hx, popTrack_keyAt kgs jM jM, hkey])
          rw [if_pos rfl] at hrec
          rw [if_pos rfl]
          omega
        · -- the last member of the majority group was just emitted
          have hdone : greedyRun n (popTrack kgs jM).2 (some jM) = [] :=
            greedyRun_total_zero n _ _ (by omega)
          rw [hdone]
          have hz : adjFrom am (am (popTrack kgs jM).1) [] = 0 := rfl
          rw [hz, if_pos rfl]
          omega
      · -- some other group still has members: no collision this step
        push_neg at hOthers
        obtain ⟨j0, hj0len, hj0ne, hj0g⟩ := hOthers
        have hpi : ∃ j, pickIdx kgs (some jM) = some j := by
          cases hpi : pickIdx kgs (some jM) with
          | some j => exact ⟨j, rfl⟩
          | none =>
            exfalso
            exact hj0g (pickIdx_none_gsize kgs (some jM) hpi j0 hj0len (by simpa using hj0ne))
        obtain ⟨j, hpij⟩ := hpi
        obtain ⟨hjlen, hjp, hjg, _⟩ := pickIdx_spec kgs (some jM) j hpij
        have hjne : j ≠ jM := fun hh => hjp (by rw [hh])
        have hpick : pick kgs (some jM) = some j := by
          unfold pick
          rw [hpij]
        rw [greedyRun, hpick]
        have hemit : am (popTrack kgs j).1 = keyAt kgs j :=
          popTrack_emit_key am kgs j hjg hE
        have hstep : adjFrom am pk
            ((popTrack kgs j).1 :: greedyRun n (popTrack kgs j).2 (some j)) =
            adjFrom am (am (popTrack kgs j).1) (greedyRun n (popTrack kgs j).2 (some j)) := by
          apply adjFrom_cons_zero
          intro a hpka hxa
          rw [hpk] at hpka
          have haA : a = A := (Option.some.inj hpka).symm
          subst haA
          have hkja : keyAt kgs j = some a := by rw [← hemit]; exact hxa
          exact hK jM j a (Ne.symm hjne) hkey hkja
        rw [hstep]
        have hlen' := popTrack_totalLen kgs j hjg
        have hjM' : gsize (popTrack kgs j).2 jM = gsize kgs jM :=
          popTrack_gsize_other kgs j jM (Ne.symm hjne)
        have hrec := ih (popTrack kgs j).2 (some j) (am (popTrack kgs j).1) jM A
          (by omega)
          (by rw [popTrack_keyAt kgs j jM]; exact hkey)
          (fun hc => absurd (Option.some.inj hc) hjne)
          (fun _ => by rw [hjM']; have := h1 rfl; omega)
          (popTrack_ElemKeysP am kgs j hE)
          (popTrack_KeyDistinctP kgs j hK)
          (by show am (popTrack kgs j).1 = keyAt (popTrack kgs j).2 j
              rw [hemit, popTrack_keyAt kgs j j])
        rw [if_neg (fun hc => absurd (Option.some.inj hc) hjne)] at hrec
        rw [if_pos rfl]
        rw [hjM'] at hrec
        omega
    · -- previous pick was not the majority group: the majority is picked
      have hM2 : totalLen kgs + 2 ≤ 2 * gsize kgs jM := h2 hpj
      have hMle := gsize_le_totalLen kgs jM
      have hMpos : gsize kgs jM ≠ 0 := by omega
      have hjMp : some jM ≠ p := fun hh => hpj hh.symm
      have hjMelig : jM ∈ eligibleIdx kgs p :=
        (eligibleIdx_mem kgs p jM).mpr ⟨gsize_pos_lt kgs jM hMpos, hjMp, hMpos⟩
      have hpi : ∃ j, pickIdx kgs p = some j := by
        cases hpi : pickIdx kgs p with
        | some j => exact ⟨j, rfl⟩
        | none =>
          exfalso
          have helig : eligibleIdx kgs p = [] := List.argmax_eq_none.mp hpi
          rw [helig] at hjMelig
          exact absurd hjMelig (List.not_mem_nil jM)
      obtain ⟨j, hpij⟩ := hpi
      obtain ⟨hjlen, hjp, hjg, hjmax⟩ := pickIdx_spec kgs p j hpij
      have hjjM : j = jM := by
        by_contra hne
        have hmax := List.le_of_mem_argmax hjMelig hpij
        have hpair := gsize_pair_le kgs j jM hne
        omega
      subst hjjM
      have hpick : pick kgs p = some j := by
        unfold pick
        rw [hpij]
      rw [greedyRun, hpick]
      have hemit : am (popTrack kgs j).1 = keyAt kgs j :=
        popTrack_emit_key am kgs j hjg hE
      have hx : am (popTrack kgs j).1 = some A := by rw [hemit, hkey]
      have hstep : adjFrom am pk
          ((popTrack kgs j).1 :: greedyRun n (popTrack kgs j).2 (some j)) =
          adjFrom am (am (popTrack kgs j).1) (greedyRun n (popTrack kgs j).2 (some j)) := by
        apply adjFrom_cons_zero
        intro a hpka hxa
        cases p with
        | none =>
          have hnone : pk = none := hP
          rw [hnone] at hpka
          cases hpka
        | some i =>
          have hpki : pk = keyAt kgs i := hP
          have hine : i ≠ j := fun hh => hjp (by rw [hh])
          have hki : keyAt kgs i = some a := by rw [← hpki]; exact hpka
          have hkj : keyAt kgs j = some a := by rw [← hemit]; exact hxa
          exact hK i j a hine hki hkj
      rw [hstep]
      have hlen' := popTrack_totalLen kgs j hjg
      have hself := popTrack_gsize_self kgs j hjg
      have hrec := ih (popTrack kgs j).2 (some j) (am (popTrack kgs j).1) j A
        (by omega)
        (by rw [popTrack_keyAt kgs j j]; exact hkey)
        (fun _ => by omega)
        (fun hc => absurd rfl hc)
        (popTrack_ElemKeysP am kgs j hE)
        (popTrack_KeyDistinctP kgs j hK)
        (by show am (popTrack kgs j).1 = keyAt (popTrack kgs j).2 j
            rw [hemit, popTrack_keyAt kgs j j])
      rw [if_pos rfl] at hrec
      rw [if_neg hpj]
      omega

/-! Counting lemmas: sizes of the built groups versus artist counts, and
the lower bound on adjacent collisions of any permutation. -/

theorem countA_cons (am : String → Option String) (a x : String) (l : List String) :
    countA am a (x :: l) = countA am a l + (if am x = some a then 1 else 0) := by
  unfold countA
  rw [List.countP_cons]
  by_cases hx : am x = some a <;> simp [hx]

theorem countNotA_cons (am : String → Option String) (a x : String) (l : List String) :
    countNotA am a (x :: l) = countNotA am a l + (if am x = some a then 0 else 1) := by
  unfold countNotA
  rw [List.countP_cons]
  by_cases hx : am x = some a <;> simp [hx]

theorem headA_cons (am : String → Option String) (a x : String) (l : List String) :
    headA am a (x :: l) = if am x = some a then 1 else 0 := rfl

theorem headA_le_one (am : String → Option String) (a : String) (l : List String) :
    headA am a l ≤ 1 := by
  cases l with
  | nil => exact Nat.zero_le _
  | cons x rest =>
    rw [headA_cons]
    by_cases hx : am x = some a <;> simp [hx]

theorem countA_add_countNotA (am : String → Option String) (a : String) :
    ∀ l : List String, countA am a l + countNotA am a l = l.length := by
  intro l
  induction l with
  | nil => rfl
  | cons x rest ih =>
    rw [countA_cons, countNotA_cons, List.length_cons]
    by_cases hx : am x = some a <;> simp [hx] <;> omega

theorem adj_lower (am : String → Option String) (a : String) : ∀ l : List String,
    countA am a l ≤ adjCollisions am l + countNotA am a l + headA am a l := by
  intro l
  induction l with
  | nil => simp [countA, countNotA, headA, adjCollisions]
  | cons x t ih =>
    cases t with
    | nil =>
      by_cases hx : am x = some a <;>
        simp [countA, countNotA, headA, adjCollisions, List.countP_cons, hx]
    | cons y t' =>
      rw [countA_cons, countNotA_cons, headA_cons]
      rw [headA_cons] at ih
      have hadj : adjCollisions am (x :: y :: t') =
          (if sameArtist am x y then 1 else 0) + adjCollisions am (y :: t') := rfl
      rw [hadj]
      by_cases hx : am x = some a
      · by_cases hy : am y = some a
        · have hs : sameArtist am x y = true := by
            unfold sameArtist
            rw [hx, hy]
            simp
          rw [hs]
          simp [hx, hy] at ih ⊢
          omega
        · have hs : sameArtist am x y = false := by
            unfold sameArtist
            rw [hx]
            cases hyv : am y with
            | none => rfl
            | some b =>
              have hab : ¬(a = b) := fun hh => hy (by rw [hyv, hh])
              simp [hab]
          rw [hs]
          simp [hx, hy] at ih ⊢
          omega
      · by_cases hy : am y = some a <;>
          · cases hsv : sameArtist am x y <;> simp [hx, hy, hsv] at ih ⊢ <;> omega

theorem mem_joinG_idx (kgs : KGroups) : ∀ t, t ∈ joinG kgs →
    ∃ j, j < kgs.length ∧ t ∈ (kgs.getD j (none, [])).2 := by
  induction kgs with
  | nil => intro t ht; rw [joinG_nil] at ht; exact absurd ht (List.not_mem_nil t)
  | cons g gt ih =>
    intro t ht
    rw [joinG_cons] at ht
    rcases List.mem_append.mp ht with h | h
    · exact ⟨0, by simp, h⟩
    · obtain ⟨j, hj, hmem⟩ := ih t h
      exact ⟨j + 1, by simpa using hj, hmem⟩

theorem ElemKeysP_tail (am : String → Option String) (g : Option String × List String)
    (gt : KGroups) (h : ElemKeysP am (g :: gt)) : ElemKeysP am gt := by
  intro j t ht
  have := h (j + 1) t (by rw [List.getD_cons_succ]; exact ht)
  rwa [keyAt_cons_succ] at this

theorem KeyDistinctP_tail (g : Option String × List String) (gt : KGroups)
    (h : KeyDistinctP (g :: gt)) : KeyDistinctP gt := by
  intro i j a hne hi
  have := h (i + 1) (j + 1) a (by omega) (by rw [keyAt_cons_succ]; exact hi)
  rwa [keyAt_cons_succ] at this

theorem gsize_le_countA (am : String → Option String) (a : String) :
    ∀ (kgs : KGroups) (j : Nat), keyAt kgs j = some a → ElemKeysP am kgs →
      gsize kgs j ≤ countA am a (joinG kgs) := by
  intro kgs
  induction kgs with
  | nil =>
    intro j hkey _
    rw [keyAt_nil] at hkey
    cases hkey
  | cons g gt ih =>
    intro j hkey hE
    cases j with
    | zero =>
      rw [keyAt_cons_zero] at hkey
      rw [gsize_cons_zero]
      unfold countA
      rw [joinG_cons, List.countP_append]
      have hall : ∀ t ∈ g.2, am t = some a := by
        intro t ht
        have := hE 0 t ht
        rwa [keyAt_cons_zero, hkey] at this
      have : List.countP (fun t => am t = some a) g.2 = g.2.length :=
        List.countP_eq_length.mpr (fun t ht => by simp [hall t ht])
      omega
    | succ m =>
      rw [keyAt_cons_succ] at hkey
      rw [gsize_cons_succ]
      unfold countA
      rw [joinG_cons, List.countP_append]
      have := ih m hkey (ElemKeysP_tail am g gt hE)
      unfold countA at this
      omega

theorem countA_joinG_eq (am : String → Option String) (a : String) :
    ∀ (kgs : KGroups) (jM : Nat), keyAt kgs jM = some a → ElemKeysP am kgs →
      KeyDistinctP kgs → countA am a (joinG kgs) = gsize kgs jM := by
  intro kgs
  induction kgs with
  | nil =>
    intro jM hkey _ _
    rw [keyAt_nil] at hkey
    cases hkey
  | cons g gt ih =>
    intro jM hkey hE hK
    cases jM with
    | zero =>
      rw [keyAt_cons_zero] at hkey
      rw [gsize_cons_zero]
      unfold countA
      rw [joinG_cons, List.countP_append]
      have hall : ∀ t ∈ g.2, am t = some a := by
        intro t ht
        have := hE 0 t ht
        rwa [keyAt_cons_zero, hkey] at this
      have h1 : List.countP (fun t => am t = some a) g.2 = g.2.length :=
        List.countP_eq_length.mpr (fun t ht => by simp [hall t ht])
      have h2 : List.countP (fun t => am t = some a) (joinG gt) = 0 := by
        rw [List.countP_eq_zero]
        intro t ht
        obtain ⟨j, hj, hmem⟩ := mem_joinG_idx gt t ht
        have hkt : am t = keyAt gt j := by
          have := hE (j + 1) t (by rw [List.getD_cons_succ]; exact hmem)
          rwa [keyAt_cons_succ] at this
        have hne : keyAt gt j ≠ some a := by
          have := hK 0 (j + 1) a (by omega) (by rw [keyAt_cons_zero]; exact hkey)
          rwa [keyAt_cons_succ] at this
        simp [hkt, hne]
      omega
    | succ m =>
      rw [keyAt_cons_succ] at hkey
      rw [gsize_cons_succ]
      unfold countA
      rw [joinG_cons, List.countP_append]
      have h1 : List.countP (fun t => am t = some a) g.2 = 0 := by
        rw [List.countP_eq_zero]
        intro t ht
        have hkt : am t = g.1 := by
          have := hE 0 t ht
          rwa [keyAt_cons_zero] at this
        have hne : g.1 ≠ some a := by
          have := hK (m + 1) 0 a (by omega) (by rw [keyAt_cons_succ]; exact hkey)
          rwa [keyAt_cons_zero] at this
        simp [hkt, hne]
      have h2 := ih m hkey (ElemKeysP_tail am g gt hE) (KeyDistinctP_tail g gt hK)
      unfold countA at h2
      omega

theorem totalLen_buildGroups (am : String → Option String) (tracks : List String) :
    totalLen (buildGroups am tracks) = tracks.length := by
  rw [← joinG_length]
  exact (buildGroups_join am tracks).length_eq

theorem countA_joinG_buildGroups (am : String → Option String) (a : String)
    (tracks : List String) :
    countA am a (joinG (buildGroups am tracks)) = countA am a tracks :=
  (buildGroups_join am tracks).countP_eq _

theorem exists_major_idx (am : String → Option String) (a : String) (tracks : List String)
    (h : countA am a tracks ≠ 0) :
    ∃ jM, keyAt (buildGroups am tracks) jM = some a := by
  have hpos : 0 < countA am a (joinG (buildGroups am tracks)) := by
    rw [countA_joinG_buildGroups]
    omega
  unfold countA at hpos
  obtain ⟨t, ht, hta⟩ := List.countP_pos_iff.mp hpos
  obtain ⟨j, hj, hmem⟩ := mem_joinG_idx (buildGroups am tracks) t ht
  refine ⟨j, ?_⟩
  have := buildGroups_ElemKeysP am tracks j t hmem
  rw [← this]
  simpa using hta

theorem spread_collisions_zero (tracks : List String) (artist_map : List (String × String))
    (hb : ∀ a : String, countA (lookupArtist artist_map) a tracks ≤ (tracks.length + 1) / 2) :
    adjCollisions (lookupArtist artist_map) (_spread_tracks_by_artist tracks artist_map) = 0 := by
  unfold _spread_tracks_by_artist
  rw [← adjFrom_none_eq]
  apply greedy_zero (lookupArtist artist_map) _ _ none none (le_refl _)
  · intro j _
    have htot := totalLen_buildGroups (lookupArtist artist_map) tracks
    cases hkey : keyAt (buildGroups (lookupArtist artist_map) tracks) j with
    | some a =>
      have h1 := gsize_le_countA (lookupArtist artist_map) a _ j hkey
        (buildGroups_ElemKeysP (lookupArtist artist_map) tracks)
      rw [countA_joinG_buildGroups] at h1
      have h3 := hb a
      omega
    | none =>
      have h1 := buildGroups_NoneSingleP (lookupArtist artist_map) tracks j hkey
      have h2 := gsize_le_totalLen (buildGroups (lookupArtist artist_map) tracks) j
      omega
  · intro i hi
    cases hi
  · exact buildGroups_ElemKeysP (lookupArtist artist_map) tracks
  · exact buildGroups_KeyDistinctP (lookupArtist artist_map) tracks
  · rfl

theorem spread_collisions_major (tracks : List String) (artist_map : List (String × String))
    (a : String)
    (hM : tracks.length + 2 ≤ 2 * countA (lookupArtist artist_map) a tracks) :
    adjCollisions (lookupArtist artist_map) (_spread_tracks_by_artist tracks artist_map)
      + tracks.length + 1 = 2 * countA (lookupArtist artist_map) a tracks := by
  have hc0 : countA (lookupArtist artist_map) a tracks ≠ 0 := by omega
  obtain ⟨jM, hkey⟩ := exists_major_idx (lookupArtist artist_map) a tracks hc0
  have hsize : gsize (buildGroups (lookupArtist artist_map) tracks) jM
      = countA (lookupArtist artist_map) a tracks := by
    rw [← countA_joinG_buildGroups (lookupArtist artist_map) a tracks]
    exact (countA_joinG_eq (lookupArtist artist_map) a _ jM hkey
      (buildGroups_ElemKeysP (lookupArtist artist_map) tracks)
      (buildGroups_KeyDistinctP (lookupArtist artist_map) tracks)).symm
  have htot := totalLen_buildGroups (lookupArtist artist_map) tracks
  simp only [_spread_tracks_by_artist]
  rw [← adjFrom_none_eq]
  have hmain := greedy_major (lookupArtist artist_map)
    (totalLen (buildGroups (lookupArtist artist_map) tracks))
    (buildGroups (lookupArtist artist_map) tracks) none none jM a
    (le_refl _) hkey
    (fun hc => by cases hc)
    (fun _ => by rw [hsize]; omega)
    (buildGroups_ElemKeysP (lookupArtist artist_map) tracks)
    (buildGroups_KeyDistinctP (lookupArtist artist_map) tracks)
    rfl
  rw [if_neg (by simp)] at hmain
  omega

/-- C7: modelled from the spec, `_spread_tracks_by_artist` always returns a
permutation of its input; when every artist's group size is at most
half the length rounded up, the result has no adjacent same-artist pair;
and in every case (also when one artist exceeds that bound) the number of
adjacent same-artist collisions is minimal among all permutations of the
input, rather than the call failing. -/
theorem spread_correct (tracks : List String) (artist_map : List (String × String)) :
    List.Perm (_spread_tracks_by_artist tracks artist_map) tracks ∧
    ((∀ a : String, countA (lookupArtist artist_map) a tracks ≤ (tracks.length + 1) / 2) →
      adjCollisions (lookupArtist artist_map) (_spread_tracks_by_artist tracks artist_map)
        = 0) ∧
    (∀ l : List String, List.Perm l tracks →
      adjCollisions (lookupArtist artist_map) (_spread_tracks_by_artist tracks artist_map)
        ≤ adjCollisions (lookupArtist artist_map) l) := by
  refine ⟨spread_perm tracks artist_map, spread_collisions_zero tracks artist_map, ?_⟩
  intro l hperm
  by_cases hb : ∀ a : String, countA (lookupArtist artist_map) a tracks
      ≤ (tracks.length + 1) / 2
  · rw [spread_collisions_zero tracks artist_map hb]
    exact Nat.zero_le _
  · push_neg at hb
    obtain ⟨a, ha⟩ := hb
    have hM : tracks.length + 2 ≤ 2 * countA (lookupArtist artist_map) a tracks := by
      omega
    have hcost := spread_collisions_major tracks artist_map a hM
    have hlow := adj_lower (lookupArtist artist_map) a l
    have hcnt : countA (lookupArtist artist_map) a l
        = countA (lookupArtist artist_map) a tracks := hperm.countP_eq _
    have hsum := countA_add_countNotA (lookupArtist artist_map) a l
    have hlen : l.length = tracks.length := hperm.length_eq
    have hhead := headA_le_one (lookupArtist artist_map) a l
    omega

theorem spread_correct_witness :
    adjCollisions (lookupArtist [("t1", "A")])
      (_spread_tracks_by_artist ["t1"] [("t1", "A")]) = 0 ∧
    adjCollisions (lookupArtist [("t1", "A")])
      (_spread_tracks_by_artist ["t1"] [("t1", "A")])
      ≤ adjCollisions (lookupArtist [("t1", "A")]) ["t1"] :=
  ⟨(spread_correct ["t1"] [("t1", "A")]).2.1
      (fun a => le_trans (List.countP_le_length _) (by decide)),
    (spread_correct ["t1"] [("t1", "A")]).2.2 ["t1"] (List.Perm.refl _)⟩

/-- C8: modelled from the spec, when every call of the artist-resolution
API raises HTTP 403, `spotify_track_primary_artist_by_uri` propagates the
403 to the playlist-assembly caller (provided at least one valid reference
makes it call out at all), the caller substitutes the empty artist map,
and the final track order equals the pre-lookup discovery-mix order
exactly. -/
theorem resolver_403_fallback (validUri : String → Bool)
    (http : Nat → List String → Except Nat (List (String × String)))
    (uris : List String)
    (hvalid : pyDedup (uris.filter validUri) ≠ [])
    (hhttp : ∀ k b, http k b = .error 403) :
    spotify_track_primary_artist_by_uri validUri http uris = .error 403 ∧
    create_weekly_playlist_order validUri http uris = uris := by
  have hres : spotify_track_primary_artist_by_uri validUri http uris = .error 403 := by
    unfold spotify_track_primary_artist_by_uri
    cases hv : pyDedup (uris.filter validUri) with
    | nil => exact absurd hv hvalid
    | cons x xs =>
      show resolveBatches http (batches50 (x :: xs)) 0 = Except.error 403
      rw [batches50, List.length_cons, batches50Go, resolveBatches,
        hhttp 0 ((x :: xs).take 50)]
  refine ⟨hres, ?_⟩
  unfold create_weekly_playlist_order
  rw [hres]
  simp

theorem resolver_403_fallback_witness :
    spotify_track_primary_artist_by_uri (fun _ => true) (fun _ _ => .error 403)
      ["spotify:track:A", "spotify:track:B", "spotify:track:C"] = .error 403 ∧
    create_weekly_playlist_order (fun _ => true) (fun _ _ => .error 403)
      ["spotify:track:A", "spotify:track:B", "spotify:track:C"]
      = ["spotify:track:A", "spotify:track:B", "spotify:track:C"] :=
  resolver_403_fallback (fun _ => true) (fun _ _ => .error 403)
    ["spotify:track:A", "spotify:track:B", "spotify:track:C"]
    (by decide) (fun _ _ => rfl)

end BWSP
